import Mathlib

/-!
Shallow embedding of `src/LinkedHashMap.ts`

The TypeScript class `LHMap.LinkedHashMap<V>` couples a chained hash table
with a circular doubly linked list threading all entries through a sentinel
("header") node.  We embed it as a state record over an *arena*: entry
objects are stored in a list `arena`, an entry id is its index in that list,
and the JS object references `next` / `before` / `after` become `Option Nat`
ids.  The header node is always id `0` (it is the first object the
constructor allocates).  JS field mutation becomes functional update of the
arena at the given id; statement order inside each method is preserved.

Numeric conventions:
* JS `number` fields that hold integers (`size`, `threshold`, `modCount`,
  hash values) are modeled as `Int`; capacities / indices as `Nat`.
* `loadFactor` is modeled as `Rat`; `Math.floor` on it is `jsFloor`
  (exact for every value the claims exercise).
* `hash & hash` is `ToInt32` truncation (`jsToInt32`); `%` on JS numbers
  truncates toward zero, which is `Int.tmod`.  `charCodeAt` is modeled by
  the character's code point (identical on the BMP strings used anywhere
  in the spec); `Math.pow` on these integer arguments is exact integer
  power for the string lengths that occur.
* While-loops over `next` / `after` links become fuel recursion with fuel
  `arena.length`; in every state satisfying the representation invariant
  the traversals are shorter than the fuel, so the model agrees with the
  source there.
* Two places in the source can fail at runtime and are modeled by
  `Option` / explicit error results: `computeCapacity` (whose loop guard
  compares `length` against `this.threshold`, which the loop body never
  changes, so the loop either exits immediately or never), and `clear`
  (JS `Array(n)` throws `RangeError` for negative `n`).
* Dereferencing an unset (`undefined`) link would throw in JS; the model
  leaves the state unchanged in that case.  This situation is unreachable
  from the public API (links of entries in the order list are always set),
  so no claim depends on it.
-/

set_option maxHeartbeats 1000000

namespace LHMap

/-- `Math.floor` on a rational: floor division of the numerator by the
(positive) denominator. -/
def jsFloor (q : Rat) : Int := Int.fdiv q.num q.den

/-- `Math.floor (x * lf)` for an integer `x` and rational `lf`, computed
without rational normalization (so that closed states evaluate inside the
kernel): `⌊x·(num/den)⌋ = (x·num).fdiv den`. -/
def jsFloorMul (x : Int) (lf : Rat) : Int := Int.fdiv (x * lf.num) (lf.den : Int)

/-- The default load factor `0.75`, as an already-normalized rational. -/
def lf34 : Rat := ⟨3, 4, by decide, by decide⟩

/-- JS `ToInt32` as performed by `hash & hash`: reduce modulo `2^32` into
`[-2^31, 2^31)`. -/
def jsToInt32 (n : Int) : Int :=
  let m := n % 4294967296
  if m < 2147483648 then m else m - 4294967296

/-- JS `%` on integers: remainder truncated toward zero. -/
def jsRem (a b : Int) : Int := Int.tmod a b

/-- One entry object of the map (`class Entry<V>`).  `key`/`value` are
`none` exactly when the JS fields are `undefined` (the header); `next`
chains entries inside one bucket; `before`/`after` are the circular
order-list links. -/
structure Entry (V : Type) where
  key : Option String
  value : Option V
  next : Option Nat
  before : Option Nat
  after : Option Nat
deriving Repr, DecidableEq

/-- The whole map state (`class LinkedHashMap<V>`).  `buckets` stores the
head entry id of each chain (`none` = empty bucket); `capacity` is the
constructor-time field, which later operations never read (they use
`buckets.length`, as the source does). -/
structure LinkedHashMap (V : Type) where
  arena : List (Entry V)
  buckets : List (Option Nat)
  size : Int
  threshold : Int
  loadFactor : Rat
  capacity : Nat
  modCount : Int
deriving Repr, DecidableEq

variable {V : Type}

/-- The sentinel entry id: the header is the first object the constructor
allocates, hence arena index 0. -/
def headerId : Nat := 0

namespace LinkedHashMap

/-- Read the entry object with id `i` (total; the default is never reached
for ids that occur in well-formed states). -/
def ent (m : LinkedHashMap V) (i : Nat) : Entry V :=
  m.arena.getD i ⟨none, none, none, none, none⟩

/-- Mutate the entry object with id `i` in place. -/
def updEnt (m : LinkedHashMap V) (i : Nat) (f : Entry V → Entry V) :
    LinkedHashMap V :=
  { m with arena := m.arena.set i (f (m.ent i)) }

/-- `isEmpty()` -/
def isEmpty (m : LinkedHashMap V) : Bool := m.size = 0

/-- `hashCode(str)`: polynomial accumulator
`hash += Math.pow(charCode * 31, len - i); hash = hash & hash`. -/
def hashCode (str : String) : Int :=
  (List.range str.length).foldl
    (fun hash i =>
      jsToInt32 (hash + ((str.data.getD i 'A').toNat * 31 : Int) ^ (str.length - i)))
    0

/-- `hash(key)` relative to a bucket count:
`Math.abs(hashCode(key) % buckets.length)`. -/
def hashIdx (len : Nat) (key : String) : Nat :=
  (jsRem (hashCode key) (len : Int)).natAbs

/-- `this.hash(key)` -/
def hash (m : LinkedHashMap V) (key : String) : Nat :=
  hashIdx m.buckets.length key

/-- The chain scan shared by `get` / `has` / `set` / (`delete` tracks one
extra pointer): walk `next` links from `start`, return the id of the first
entry whose key equals `key`.  Fuel recursion; fuel `arena.length` is
always enough in well-formed states. -/
def findEntry (m : LinkedHashMap V) (key : String) :
    Nat → Option Nat → Option Nat
  | _, none => none
  | 0, some _ => none
  | fuel + 1, some i =>
      if (m.ent i).key = some key then some i
      else findEntry m key fuel (m.ent i).next

/-- `get(key)`: the found entry's `value`, else `undefined` (= `none`). -/
def get (m : LinkedHashMap V) (key : String) : Option V :=
  match findEntry m key m.arena.length (m.buckets.getD (m.hash key) none) with
  | some i => (m.ent i).value
  | none => none

/-- `has(key)` -/
def has (m : LinkedHashMap V) (key : String) : Bool :=
  (findEntry m key m.arena.length (m.buckets.getD (m.hash key) none)).isSome

/-- `Entry.remove()`:
`this.before.after = this.after; this.after.before = this.before`,
statement by statement (each statement re-reads the current state). -/
def removeEntry (m : LinkedHashMap V) (i : Nat) : LinkedHashMap V :=
  let m1 :=
    match (m.ent i).before with
    | some b => m.updEnt b (fun e => { e with after := (m.ent i).after })
    | none => m
  match (m1.ent i).after with
  | some a => m1.updEnt a (fun e => { e with before := (m1.ent i).before })
  | none => m1

/-- `Entry.addBefore(existingEntry)`:
`this.after = existingEntry; this.before = existingEntry.before;
this.before.after = this; this.after.before = this`. -/
def addBefore (m : LinkedHashMap V) (i existing : Nat) : LinkedHashMap V :=
  let m1 := m.updEnt i (fun e => { e with after := some existing })
  let m2 := m1.updEnt i (fun e => { e with before := (m1.ent existing).before })
  let m3 :=
    match (m2.ent i).before with
    | some b => m2.updEnt b (fun e => { e with after := some i })
    | none => m2
  match (m3.ent i).after with
  | some a => m3.updEnt a (fun e => { e with before := some i })
  | none => m3

/-- `addEntry(key, value, idx, callRemove)`: allocate a new entry whose
`next` is the old bucket head, make it the new head, and link it directly
before the header.  (The source never reads `callRemove`.) -/
def addEntry (m : LinkedHashMap V) (key : String) (value : V) (idx : Nat)
    (callRemove : Bool) : LinkedHashMap V :=
  let old := m.buckets.getD idx none
  let i := m.arena.length
  let m1 := { m with arena := m.arena ++ [(⟨some key, some value, old, none, none⟩ : Entry V)] }
  let m2 := { m1 with buckets := m1.buckets.set idx (some i) }
  let _ := callRemove
  addBefore m2 i headerId

/-- The loop body of `rehash`: walk the order list from `e` until the
header comes around; prepend each visited entry into its new bucket. -/
def rehashLoop (m : LinkedHashMap V) : Nat → Nat → LinkedHashMap V
  | _, 0 => m
  | e, fuel + 1 =>
      if e = headerId then m
      else
        let idx := m.hash ((m.ent e).key.getD "")
        let m1 := m.updEnt e (fun en => { en with next := m.buckets.getD idx none })
        let m2 := { m1 with buckets := m1.buckets.set idx (some e) }
        rehashLoop m2 ((m2.ent e).after.getD headerId) fuel

/-- `rehash()`: double capacity (+1), recompute the threshold, allocate a
fresh bucket array and re-chain every entry of the order list. -/
def rehash (m : LinkedHashMap V) : LinkedHashMap V :=
  let newCapacity := m.buckets.length * 2 + 1
  let m1 := { m with
    threshold := jsFloorMul (newCapacity : Int) m.loadFactor,
    buckets := List.replicate newCapacity none }
  rehashLoop m1 ((m1.ent headerId).after.getD headerId) m1.arena.length

/-- `set(key, value)` for a string key (the null/undefined guard lives in
`setJS` below): update-and-touch when the key is found in its chain,
otherwise bump `size`, possibly `rehash`, and `addEntry`. -/
def set (m : LinkedHashMap V) (key : String) (value : V) : LinkedHashMap V :=
  let idx := m.hash key
  match findEntry m key m.arena.length (m.buckets.getD idx none) with
  | some e =>
      let m1 := m.updEnt e (fun en => { en with value := some value })
      let m2 := removeEntry m1 e
      addBefore m2 e headerId
  | none =>
      let m1 := { m with modCount := m.modCount + 1, size := m.size + 1 }
      if m1.size > m1.threshold then
        let m2 := rehash m1
        addEntry m2 key value (m2.hash key) true
      else
        addEntry m1 key value idx true

/-- `putAll(entries)` -/
def putAll (m : LinkedHashMap V) (entries : List (String × V)) :
    LinkedHashMap V :=
  entries.foldl (fun acc p => acc.set p.1 p.2) m

/-- The loop body of `delete`: scan the chain keeping the previous node
(`last`); on a key match splice the chain, decrement `size` and unlink the
entry from the order list. -/
def deleteLoop (m : LinkedHashMap V) (key : String) (idx : Nat) :
    Nat → Option Nat → Option Nat → Bool × LinkedHashMap V
  | _, _, none => (false, m)
  | 0, _, some _ => (false, m)
  | fuel + 1, last, some e =>
      if (m.ent e).key = some key then
        let m1 := { m with modCount := m.modCount + 1 }
        let m2 :=
          match last with
          | none => { m1 with buckets := m1.buckets.set idx (m1.ent e).next }
          | some l => m1.updEnt l (fun en => { en with next := (m1.ent e).next })
        let m3 := { m2 with size := m2.size - 1 }
        (true, removeEntry m3 e)
      else deleteLoop m key idx fuel (some e) (m.ent e).next

/-- `delete(key)`: result flag and new state. -/
def delete (m : LinkedHashMap V) (key : String) : Bool × LinkedHashMap V :=
  let idx := m.hash key
  deleteLoop m key idx m.arena.length none (m.buckets.getD idx none)

/-- The state transformation of `clear()` when `Array(this.size)` does not
throw: reinitialize the bucket array to length `size` and zero the size —
the order list is *not* touched. -/
def clearCore (m : LinkedHashMap V) : LinkedHashMap V :=
  if m.size = 0 then m
  else { m with
    modCount := m.modCount + 1,
    buckets := List.replicate m.size.toNat none,
    size := 0 }

/-- `clear()`: JS `Array(n)` throws `RangeError` for negative `n`, modeled
by `none`. -/
def clear (m : LinkedHashMap V) : Option (LinkedHashMap V) :=
  if m.size < 0 then none else some (clearCore m)

/-- The shared traversal of `entries()` / `keys()` / `values()` /
`[Symbol.iterator]`: collect the ids on the order list from `e` until the
header comes around. -/
def iterIds (m : LinkedHashMap V) : Nat → Nat → List Nat
  | _, 0 => []
  | e, fuel + 1 =>
      if e = headerId then []
      else e :: iterIds m ((m.ent e).after.getD headerId) fuel

/-- The order-list ids from `header.after` to the header (exclusive). -/
def orderIds (m : LinkedHashMap V) : List Nat :=
  iterIds m ((m.ent headerId).after.getD headerId) m.arena.length

/-- `entries()` (and `[Symbol.iterator]`): the `[key, value]` pairs in
order-list order. -/
def entriesList (m : LinkedHashMap V) : List (Option String × Option V) :=
  (m.orderIds).map (fun i => ((m.ent i).key, (m.ent i).value))

/-- `keys()` -/
def keysList (m : LinkedHashMap V) : List (Option String) :=
  (m.orderIds).map (fun i => (m.ent i).key)

/-- `values()` -/
def valuesList (m : LinkedHashMap V) : List (Option V) :=
  (m.orderIds).map (fun i => (m.ent i).value)

end LinkedHashMap

/-- The no-`entries` constructor path:
`new LinkedHashMap(null, initialCapacity, loadFactor)`. -/
def mkNoEntries (initialCapacity : Nat) (loadFactor : Rat) :
    LinkedHashMap V :=
  { arena := [⟨none, none, none, some headerId, some headerId⟩],
    buckets := List.replicate initialCapacity none,
    size := 0,
    threshold := jsFloorMul (initialCapacity : Int) loadFactor,
    loadFactor := loadFactor,
    capacity := initialCapacity,
    modCount := 0 }

/-- `computeCapacity(initialCapacity, length)`.  The source loop
`while (length > this.threshold) newCapacity = newCapacity * 2 + 1` never
updates `this.threshold`, so its guard is invariant: the loop either exits
at once (returning `initialCapacity` unchanged) or runs forever.  `none`
models the divergence. -/
def computeCapacity (threshold : Int) (initialCapacity : Nat)
    (length : Nat) : Option Nat :=
  if (length : Int) > threshold then none else some initialCapacity

/-- The full constructor
`new LinkedHashMap(entries?, initialCapacity = 11, loadFactor = 0.75)`;
`none` models a construction that never returns. -/
def mkLinkedHashMap (entries : Option (List (String × V)))
    (initialCapacity : Nat) (loadFactor : Rat) :
    Option (LinkedHashMap V) :=
  let base : LinkedHashMap V := mkNoEntries initialCapacity loadFactor
  match entries with
  | none => some base
  | some es =>
      match computeCapacity base.threshold initialCapacity es.length with
      | none => none
      | some cap =>
          let m := { base with
            capacity := cap,
            threshold := jsFloorMul (cap : Int) loadFactor,
            buckets := List.replicate cap none }
          some (m.putAll es)

/-- A map built by the default constructor followed by a sequence of `set`
calls. -/
def fromOps (ops : List (String × V)) : LinkedHashMap V :=
  (mkNoEntries 11 lf34).putAll ops

/-- A JS value passed in key position. -/
inductive JSKey where
  | jsNull
  | jsUndefined
  | jsString (s : String)
deriving Repr, DecidableEq

/-- The runtime failures the class can raise: the explicit
`Error("put: Key must be valid string")` thrown by `set`, and the implicit
`TypeError` raised when `hashCode` evaluates `key.length` on
null/undefined. -/
inductive JSError where
  | invalidKey (msg : String)
  | typeError
deriving Repr, DecidableEq

/-- `set` as called from JS: the guard throws before any mutation, so on
error the returned state is the unchanged receiver. -/
def setJS (m : LinkedHashMap V) (k : JSKey) (v : V) :
    Except JSError (LinkedHashMap V) × LinkedHashMap V :=
  match k with
  | .jsNull => (.error (.invalidKey "put: Key must be valid string"), m)
  | .jsUndefined => (.error (.invalidKey "put: Key must be valid string"), m)
  | .jsString s => let m' := m.set s v; (.ok m', m')

/-- `get` as called from JS: `hashCode(key)` evaluates `key.length`, which
throws `TypeError` on null/undefined. -/
def getJS (m : LinkedHashMap V) (k : JSKey) : Except JSError (Option V) :=
  match k with
  | .jsNull => .error .typeError
  | .jsUndefined => .error .typeError
  | .jsString s => .ok (m.get s)

/-- `has` as called from JS. -/
def hasJS (m : LinkedHashMap V) (k : JSKey) : Except JSError Bool :=
  match k with
  | .jsNull => .error .typeError
  | .jsUndefined => .error .typeError
  | .jsString s => .ok (m.has s)

/-- `delete` as called from JS: the `TypeError` fires while hashing, before
any mutation. -/
def deleteJS (m : LinkedHashMap V) (k : JSKey) :
    Except JSError Bool × LinkedHashMap V :=
  match k with
  | .jsNull => (.error .typeError, m)
  | .jsUndefined => (.error .typeError, m)
  | .jsString s => let r := m.delete s; (.ok r.1, r.2)

end LHMap

namespace LHMap

open LinkedHashMap

/-! ## The representation invariant coupling the order list and the chains -/

/-- `b` directly follows `a` on the order list: `a.after` points to `b`
and `b.before` points back to `a`. -/
def OrdRel (m : LinkedHashMap V) (a b : Nat) : Prop :=
  (m.ent a).after = some b ∧ (m.ent b).before = some a

/-- The `next`-links starting from bucket head `h` traverse exactly the
ids `chain` and then end (`undefined`). -/
def NextPath (m : LinkedHashMap V) : Option Nat → List Nat → Prop
  | h, [] => h = none
  | h, x :: xs => h = some x ∧ NextPath m (m.ent x).next xs

/-- The well-formedness invariant of a map in normal (clear-free)
operation: `ord` are the entry ids on the circular order list (oldest
first), `chains` the ids of each bucket chain.  It asserts that the two
pointer structures are real (cycle closed through the header, chains
null-terminated), that they carry the same set of entries exactly once,
that every chained entry sits in the bucket its key hashes to, and that
keys are not duplicated. -/
structure Inv (m : LinkedHashMap V) (ord : List Nat)
    (chains : List (List Nat)) : Prop where
  arenaPos : 0 < m.arena.length
  bucketsPos : 0 < m.buckets.length
  nodup : (headerId :: ord).Nodup
  ordValid : ∀ i ∈ ord, i < m.arena.length
  ordKeys : ∀ i ∈ ord, ((m.ent i).key).isSome = true
  cycle : List.Chain (OrdRel m) headerId (ord ++ [headerId])
  chainsLen : chains.length = m.buckets.length
  chainsPath : ∀ b, b < m.buckets.length →
    NextPath m (m.buckets.getD b none) (chains.getD b [])
  chainsHash : ∀ b, b < m.buckets.length → ∀ i ∈ chains.getD b [],
    hashIdx m.buckets.length (((m.ent i).key).getD "") = b
  sync : ∀ i, i ∈ chains.flatten ↔ i ∈ ord
  chainsNodup : chains.flatten.Nodup
  keysNodup : (ord.map (fun i => (m.ent i).key)).Nodup

/-- A state is well-formed when some `ord`/`chains` witness `Inv`. -/
def SWF (m : LinkedHashMap V) : Prop := ∃ ord chains, Inv m ord chains

/-- The observable content of the order list. -/
def absList (m : LinkedHashMap V) (ord : List Nat) :
    List (Option String × Option V) :=
  ord.map (fun i => ((m.ent i).key, (m.ent i).value))

/-- Association-list lookup used to specify `get`. -/
def assocGet (k : String) (l : List (Option String × Option V)) : Option V :=
  match l.find? (fun p => decide (p.1 = some k)) with
  | some p => p.2
  | none => none

/-- The invariant justifying the amended C8: default load factor, table
non-empty, threshold in sync with the table length, and `size` within the
threshold. -/
def ThreshInv (m : LinkedHashMap V) : Prop :=
  m.size ≤ m.threshold ∧
  m.loadFactor = lf34 ∧
  m.threshold = jsFloorMul (m.buckets.length : Int) lf34 ∧
  1 ≤ m.buckets.length

/-- The states reachable through the public API: a terminating
construction followed by any sequence of `set` / `delete` / successful
`clear` calls. -/
inductive Reach : LinkedHashMap V → Prop where
  | mkNew (cap : Nat) (lf : Rat) : 0 < cap → Reach (mkNoEntries cap lf)
  | mkWith (es : List (String × V)) (cap : Nat) (lf : Rat)
      (m : LinkedHashMap V) :
      0 < cap → mkLinkedHashMap (some es) cap lf = some m → Reach m
  | setStep (m : LinkedHashMap V) (k : String) (v : V) :
      Reach m → Reach (m.set k v)
  | delStep (m : LinkedHashMap V) (k : String) :
      Reach m → Reach (m.delete k).2
  | clearStep (m m' : LinkedHashMap V) :
      Reach m → clear m = some m' → Reach m'
/-- The order-walk of the rehash loop: from node `e` the `after` links
visit exactly `todo` and then reach the header. -/
def Visits (m : LinkedHashMap V) : Nat → List Nat → Prop
  | e, [] => e = headerId
  | e, x :: xs => e = x ∧ x ≠ headerId ∧
      Visits m ((m.ent x).after.getD headerId) xs
/-- One iteration of the rehash loop body, as a named state transformer
(used only to phrase the loop's specification). -/
def rehashStep (m : LinkedHashMap V) (e : Nat) : LinkedHashMap V :=
  let idx := m.hash ((m.ent e).key.getD "")
  let m1 := m.updEnt e fun en => { en with next := m.buckets.getD idx none }
  { m1 with buckets := m1.buckets.set idx (some e) }
namespace LinkedHashMap

/-- The state produced by the hit branch of `delete`'s loop: bump
`modCount`, splice the chain (either at the bucket head or through the
previous node `last`), decrement `size`, and unlink the entry from the
order list. -/
def spliceState (m : LinkedHashMap V) (idx : Nat) (last : Option Nat)
    (e : Nat) : LinkedHashMap V :=
  let m1 := { m with modCount := m.modCount + 1 }
  let m2 :=
    match last with
    | none => { m1 with buckets := m1.buckets.set idx (m1.ent e).next }
    | some l => m1.updEnt l (fun en => { en with next := (m1.ent e).next })
  let m3 := { m2 with size := m2.size - 1 }
  removeEntry m3 e

end LinkedHashMap
/-- The state after `new LinkedHashMap(null, 1, 0.75)`, `set("x",1)`,
`clear()`, `set("x",2)`, `set("y",3)`, `set("z",4)`.  The third `set`
triggers a rehash, which walks the *stale* order list and re-chains the
pre-clear `("x",1)` entry alongside the live `("x",2)` entry. -/
def resurrectState : LinkedHashMap Nat :=
  (((clearCore ((mkNoEntries 1 lf34).set "x" 1)).set "x" 2).set "y" 3).set "z" 4
end LHMap

namespace LHMap

open LinkedHashMap

/-! ## Small evaluation lemmas -/

theorem lf34_eq : lf34 = (3 : Rat) / 4 := by
  rw [lf34, Rat.mk'_eq_divInt, Rat.divInt_eq_div]; norm_num

/-- Reading any bucket of a freshly allocated bucket array gives `none`. -/
theorem getD_replicate_none (n b : Nat) :
    (List.replicate n (none : Option Nat)).getD b none = none := by
  rcases lt_or_ge b n with h | h
  · simp [List.getD, List.getElem?_replicate, h]
  · simp [List.getD, List.getElem?_replicate, Nat.not_lt_of_ge h]

/-- `iterIds` reads only the arena, so it is unchanged by operations that
touch only buckets / counters. -/
theorem iterIds_congr {m m' : LinkedHashMap V} (h : m'.arena = m.arena) :
    ∀ fuel e, m'.iterIds e fuel = m.iterIds e fuel := by
  intro fuel
  induction fuel with
  | zero => intro e; rfl
  | succ n ih =>
      intro e
      simp only [iterIds, LinkedHashMap.ent, h, ih]

/-- `entriesList` reads only the arena. -/
theorem entriesList_congr {m m' : LinkedHashMap V} (h : m'.arena = m.arena) :
    m'.entriesList = m.entriesList := by
  unfold LinkedHashMap.entriesList LinkedHashMap.orderIds
  rw [iterIds_congr h]
  simp only [LinkedHashMap.ent, h]

/-- An empty chain scan finds nothing, whatever the fuel. -/
theorem findEntry_none (m : LinkedHashMap V) (k : String) (fuel : Nat) :
    m.findEntry k fuel none = none := by
  cases fuel <;> rfl

/-! ## Claim C5: bulk construction (code bug) -/

/-- C5: the claim says construction with a supplied `entries` sequence
terminates, pre-growing the capacity so that no mid-load resize occurs.
The code contradicts this: `computeCapacity`'s loop guard compares
`entries.length` with `this.threshold`, which the loop body never updates,
so as soon as `entries.length` exceeds the initial threshold (here: nine
entries against `floor(11 * 0.75) = 8`) the constructor never returns.
The theorem evaluates the model at that failing input: the constructor
diverges (`none`). -/
theorem C5_constructor_diverges :
    mkLinkedHashMap (V := Nat)
      (some [("a", 1), ("b", 2), ("c", 3), ("d", 4), ("e", 5),
             ("f", 6), ("g", 7), ("h", 8), ("i", 9)]) 11 lf34 = none := by
  rfl

/-! ## Claim C6: clear resets the table but not the order list -/

/-- C6: on a non-empty map, `clear()` returns with `size = 0` and a fresh
empty bucket table, so `get`/`has` report every key absent; but the order
list keeps its stale links, so iteration still yields the pre-clear
entries. -/
theorem C6_clear_behavior (m : LinkedHashMap V) (h : 0 < m.size) :
    clear m = some (clearCore m) ∧
    (clearCore m).size = 0 ∧
    (∀ b, (clearCore m).buckets.getD b none = none) ∧
    (∀ k, (clearCore m).has k = false) ∧
    (∀ k, (clearCore m).get k = none) ∧
    (clearCore m).entriesList = m.entriesList := by
  have hsz : ¬ m.size = 0 := by omega
  have hneg : ¬ m.size < 0 := by omega
  have hcc : clearCore m = { m with
      modCount := m.modCount + 1,
      buckets := List.replicate m.size.toNat none,
      size := 0 } := by
    unfold clearCore; rw [if_neg hsz]
  have hbuck : ∀ b, (clearCore m).buckets.getD b none = none := by
    intro b; rw [hcc]; exact getD_replicate_none _ _
  refine ⟨?_, by rw [hcc], hbuck, ?_, ?_, ?_⟩
  · unfold clear; rw [if_neg hneg]
  · intro k
    unfold LinkedHashMap.has
    rw [hbuck, findEntry_none]
    rfl
  · intro k
    unfold LinkedHashMap.get
    rw [hbuck, findEntry_none]
  · exact entriesList_congr (by rw [hcc])

/-- Witness for C6 at a concrete non-empty map. -/
theorem C6_witness :
    clear (fromOps [("a", 1)] : LinkedHashMap Nat) =
      some (clearCore (fromOps [("a", 1)])) :=
  (C6_clear_behavior _ (by decide)).1

/-! ## Claim C7: `set` on null/undefined keys -/

/-- C7: `set(null, v)` and `set(undefined, v)` throw
`Error("put: Key must be valid string")` and leave the map unchanged
(the guard is the first statement of `set`, before any mutation); a string
key never triggers this error. -/
theorem C7_set_invalid_key (m : LinkedHashMap V) (v : V) :
    (setJS m .jsNull v).1 = .error (.invalidKey "put: Key must be valid string") ∧
    (setJS m .jsNull v).2 = m ∧
    (setJS m .jsUndefined v).1 = .error (.invalidKey "put: Key must be valid string") ∧
    (setJS m .jsUndefined v).2 = m ∧
    (∀ s, (setJS m (.jsString s) v).1 = .ok (m.set s v)) :=
  ⟨rfl, rfl, rfl, rfl, fun _ => rfl⟩

/-! ## Claim C10: `get`/`has`/`delete` on null/undefined keys -/

/-- C10: `get`, `has` and `delete` do not validate their key: on
null/undefined they evaluate `key.length` inside `hashCode` and die with a
runtime `TypeError` instead of returning the absent marker / `false`
(which they do return for absent *string* keys). -/
theorem C10_lookup_null_type_error (m : LinkedHashMap V) :
    getJS m .jsNull = .error .typeError ∧
    getJS m .jsUndefined = .error .typeError ∧
    hasJS m .jsNull = .error .typeError ∧
    hasJS m .jsUndefined = .error .typeError ∧
    (deleteJS m .jsNull).1 = .error .typeError ∧
    (deleteJS m .jsNull).2 = m ∧
    (deleteJS m .jsUndefined).1 = .error .typeError ∧
    (deleteJS m .jsUndefined).2 = m ∧
    (∀ s, getJS m (.jsString s) = .ok (m.get s)) ∧
    (∀ s, hasJS m (.jsString s) = .ok (m.has s)) :=
  ⟨rfl, rfl, rfl, rfl, rfl, rfl, rfl, rfl, fun _ => rfl, fun _ => rfl⟩

/-! ## Counterexample for claim C3 (the `clear`/`rehash` resurrection) -/

/-- C3 as stated is false: in `resurrectState` the key `"x"` is present
and `delete("x")` returns `true`, yet afterwards `has("x")` is still
`true` (the resurrected stale entry with the same key remains chained).
The `clear` step of the scenario is the real `clear` (its `Array(size)`
does not throw here): `clear` of that state is `some` of the state used. -/
theorem C3_counterexample :
    clear ((mkNoEntries 1 lf34).set "x" 1) =
      some (clearCore ((mkNoEntries 1 lf34).set "x" 1)) ∧
    resurrectState.has "x" = true ∧
    (resurrectState.delete "x").1 = true ∧
    ((resurrectState.delete "x").2).has "x" = true := by
  exact ⟨by rfl, by rfl, by rfl, by rfl⟩

/-! ## Counterexample for claim C8 (arbitrary load factor) -/

/-- C8 quantifies over *every* load factor; with load factor `0` the
threshold is always `0`, and after the very first `set` the supposed
invariant `size ≤ threshold` already fails (the single rehash the code
performs recomputes the threshold as `floor(23 * 0) = 0` again). -/
theorem C8_counterexample :
    ¬ (((mkNoEntries (V := Nat) 11 (0 : Rat)).set "a" 1).size ≤
        ((mkNoEntries (V := Nat) 11 (0 : Rat)).set "a" 1).threshold) := by
  decide

/-! ## Counterexample for claim C9 (minimum capacity) -/

/-- C9 asserts a minimum capacity is enforced at construction; in the code
`11` is only a default parameter value, and constructing with
`initialCapacity = 0` yields a bucket array of length `0`. -/
theorem C9_counterexample :
    (mkNoEntries (V := Nat) 0 lf34).buckets.length = 0 := by
  rfl

end LHMap

namespace LHMap

open LinkedHashMap

/-! ## Frame lemmas: which fields each operation touches -/

@[simp] theorem updEnt_buckets (m : LinkedHashMap V) (i : Nat) (f : Entry V → Entry V) :
    (m.updEnt i f).buckets = m.buckets := rfl

@[simp] theorem updEnt_size (m : LinkedHashMap V) (i : Nat) (f : Entry V → Entry V) :
    (m.updEnt i f).size = m.size := rfl

@[simp] theorem updEnt_threshold (m : LinkedHashMap V) (i : Nat) (f : Entry V → Entry V) :
    (m.updEnt i f).threshold = m.threshold := rfl

@[simp] theorem updEnt_loadFactor (m : LinkedHashMap V) (i : Nat) (f : Entry V → Entry V) :
    (m.updEnt i f).loadFactor = m.loadFactor := rfl

@[simp] theorem updEnt_modCount (m : LinkedHashMap V) (i : Nat) (f : Entry V → Entry V) :
    (m.updEnt i f).modCount = m.modCount := rfl

@[simp] theorem updEnt_arena_length (m : LinkedHashMap V) (i : Nat) (f : Entry V → Entry V) :
    (m.updEnt i f).arena.length = m.arena.length := by
  simp [LinkedHashMap.updEnt]

@[simp] theorem removeEntry_buckets (m : LinkedHashMap V) (i : Nat) :
    (m.removeEntry i).buckets = m.buckets := by
  unfold LinkedHashMap.removeEntry
  dsimp only
  split <;> split <;> rfl

@[simp] theorem removeEntry_size (m : LinkedHashMap V) (i : Nat) :
    (m.removeEntry i).size = m.size := by
  unfold LinkedHashMap.removeEntry
  dsimp only
  split <;> split <;> rfl

@[simp] theorem removeEntry_threshold (m : LinkedHashMap V) (i : Nat) :
    (m.removeEntry i).threshold = m.threshold := by
  unfold LinkedHashMap.removeEntry
  dsimp only
  split <;> split <;> rfl

@[simp] theorem removeEntry_loadFactor (m : LinkedHashMap V) (i : Nat) :
    (m.removeEntry i).loadFactor = m.loadFactor := by
  unfold LinkedHashMap.removeEntry
  dsimp only
  split <;> split <;> rfl

@[simp] theorem removeEntry_arena_length (m : LinkedHashMap V) (i : Nat) :
    (m.removeEntry i).arena.length = m.arena.length := by
  unfold LinkedHashMap.removeEntry
  dsimp only
  split <;> split <;> simp

@[simp] theorem addBefore_buckets (m : LinkedHashMap V) (i e : Nat) :
    (m.addBefore i e).buckets = m.buckets := by
  unfold LinkedHashMap.addBefore
  dsimp only
  split <;> split <;> rfl

@[simp] theorem addBefore_size (m : LinkedHashMap V) (i e : Nat) :
    (m.addBefore i e).size = m.size := by
  unfold LinkedHashMap.addBefore
  dsimp only
  split <;> split <;> rfl

@[simp] theorem addBefore_threshold (m : LinkedHashMap V) (i e : Nat) :
    (m.addBefore i e).threshold = m.threshold := by
  unfold LinkedHashMap.addBefore
  dsimp only
  split <;> split <;> rfl

@[simp] theorem addBefore_loadFactor (m : LinkedHashMap V) (i e : Nat) :
    (m.addBefore i e).loadFactor = m.loadFactor := by
  unfold LinkedHashMap.addBefore
  dsimp only
  split <;> split <;> rfl

@[simp] theorem addBefore_arena_length (m : LinkedHashMap V) (i e : Nat) :
    (m.addBefore i e).arena.length = m.arena.length := by
  unfold LinkedHashMap.addBefore
  dsimp only
  split <;> split <;> simp

theorem addEntry_buckets_length (m : LinkedHashMap V) (k : String) (v : V)
    (idx : Nat) (c : Bool) :
    (m.addEntry k v idx c).buckets.length = m.buckets.length := by
  unfold LinkedHashMap.addEntry
  rw [addBefore_buckets]
  simp

@[simp] theorem addEntry_size (m : LinkedHashMap V) (k : String) (v : V)
    (idx : Nat) (c : Bool) :
    (m.addEntry k v idx c).size = m.size := by
  unfold LinkedHashMap.addEntry
  rw [addBefore_size]

@[simp] theorem addEntry_threshold (m : LinkedHashMap V) (k : String) (v : V)
    (idx : Nat) (c : Bool) :
    (m.addEntry k v idx c).threshold = m.threshold := by
  unfold LinkedHashMap.addEntry
  rw [addBefore_threshold]

@[simp] theorem addEntry_loadFactor (m : LinkedHashMap V) (k : String) (v : V)
    (idx : Nat) (c : Bool) :
    (m.addEntry k v idx c).loadFactor = m.loadFactor := by
  unfold LinkedHashMap.addEntry
  rw [addBefore_loadFactor]

theorem addEntry_arena_length (m : LinkedHashMap V) (k : String) (v : V)
    (idx : Nat) (c : Bool) :
    (m.addEntry k v idx c).arena.length = m.arena.length + 1 := by
  unfold LinkedHashMap.addEntry
  rw [addBefore_arena_length]
  simp

/-- The rehash loop only rewires `next` pointers and bucket heads: every
other control field (and the arena length) is untouched. -/
theorem rehashLoop_ctl (fuel : Nat) :
    ∀ (e : Nat) (m : LinkedHashMap V),
      (m.rehashLoop e fuel).buckets.length = m.buckets.length ∧
      (m.rehashLoop e fuel).size = m.size ∧
      (m.rehashLoop e fuel).threshold = m.threshold ∧
      (m.rehashLoop e fuel).loadFactor = m.loadFactor ∧
      (m.rehashLoop e fuel).arena.length = m.arena.length := by
  induction fuel with
  | zero => intro e m; exact ⟨rfl, rfl, rfl, rfl, rfl⟩
  | succ n ih =>
      intro e m
      by_cases he : e = headerId
      · simp [LinkedHashMap.rehashLoop, he]
      · have h := ih (((m.updEnt e fun en =>
            { en with next := m.buckets.getD (m.hash ((m.ent e).key.getD "")) none }).ent e).after.getD
            headerId)
          { m.updEnt e fun en =>
              { en with next := m.buckets.getD (m.hash ((m.ent e).key.getD "")) none } with
            buckets := ((m.updEnt e fun en =>
              { en with next := m.buckets.getD (m.hash ((m.ent e).key.getD "")) none }).buckets.set
              (m.hash ((m.ent e).key.getD "")) (some e)) }
        simp only [LinkedHashMap.rehashLoop, he, if_false]
        refine ⟨?_, ?_, ?_, ?_, ?_⟩ <;> simp_all

theorem rehash_buckets_length (m : LinkedHashMap V) :
    (m.rehash).buckets.length = m.buckets.length * 2 + 1 := by
  unfold LinkedHashMap.rehash
  rw [(rehashLoop_ctl _ _ _).1]
  simp

theorem rehash_size (m : LinkedHashMap V) : (m.rehash).size = m.size := by
  unfold LinkedHashMap.rehash
  rw [(rehashLoop_ctl _ _ _).2.1]

theorem rehash_threshold (m : LinkedHashMap V) :
    (m.rehash).threshold = jsFloorMul ((m.buckets.length * 2 + 1 : Nat) : Int) m.loadFactor := by
  unfold LinkedHashMap.rehash
  rw [(rehashLoop_ctl _ _ _).2.2.1]

theorem rehash_loadFactor (m : LinkedHashMap V) :
    (m.rehash).loadFactor = m.loadFactor := by
  unfold LinkedHashMap.rehash
  rw [(rehashLoop_ctl _ _ _).2.2.2.1]

theorem rehash_arena_length (m : LinkedHashMap V) :
    (m.rehash).arena.length = m.arena.length := by
  unfold LinkedHashMap.rehash
  rw [(rehashLoop_ctl _ _ _).2.2.2.2]

end LHMap

namespace LHMap

open LinkedHashMap

/-! ## Bucket-count tracking for `set` / `delete` / `clear` / `putAll` -/

/-- A `set` call either keeps the bucket array length or doubles it
(+1, via `rehash`). -/
theorem set_buckets_length (m : LinkedHashMap V) (k : String) (v : V) :
    (m.set k v).buckets.length = m.buckets.length ∨
    (m.set k v).buckets.length = m.buckets.length * 2 + 1 := by
  unfold LinkedHashMap.set
  dsimp only
  cases hf : m.findEntry k m.arena.length (m.buckets.getD (m.hash k) none) with
  | some e => left; simp
  | none =>
      dsimp only
      split
      · right
        rw [addEntry_buckets_length, rehash_buckets_length]
      · left
        rw [addEntry_buckets_length]

theorem deleteLoop_buckets_length (m : LinkedHashMap V) (k : String) (idx : Nat) :
    ∀ (fuel : Nat) (last cur : Option Nat),
      ((m.deleteLoop k idx fuel last cur).2).buckets.length = m.buckets.length := by
  intro fuel
  induction fuel with
  | zero => intro last cur; cases cur <;> rfl
  | succ n ih =>
      intro last cur
      cases cur with
      | none => rfl
      | some e =>
          simp only [LinkedHashMap.deleteLoop]
          split
          · cases last <;> simp
          · exact ih _ _

theorem delete_buckets_length (m : LinkedHashMap V) (k : String) :
    ((m.delete k).2).buckets.length = m.buckets.length :=
  deleteLoop_buckets_length m k _ _ _ _

theorem putAll_bucketsPos (es : List (String × V)) :
    ∀ (m : LinkedHashMap V), 0 < m.buckets.length →
      0 < (m.putAll es).buckets.length := by
  induction es with
  | nil => intro m h; exact h
  | cons p rest ih =>
      intro m h
      show 0 < ((m.set p.1 p.2).putAll rest).buckets.length
      apply ih
      rcases set_buckets_length m p.1 p.2 with h' | h' <;> omega

/-! ## The hash always lands inside the table when it is non-empty -/

/-- `|a tmod L| < L` for positive `L`: JS `Math.abs(x % len)` is a valid
index. -/
theorem natAbs_tmod_lt (a : Int) {L : Nat} (h : 0 < L) :
    (Int.tmod a (L : Int)).natAbs < L := by
  cases a with
  | ofNat n =>
      show (Int.ofNat (n % L)).natAbs < L
      exact Nat.mod_lt _ h
  | negSucc n =>
      show (-(Int.ofNat (n.succ % L))).natAbs < L
      rw [Int.natAbs_neg]
      exact Nat.mod_lt _ h

theorem hash_lt (m : LinkedHashMap V) (h : 0 < m.buckets.length)
    (k : String) : m.hash k < m.buckets.length :=
  natAbs_tmod_lt _ h

/-! ## Reachable states (claim C9) -/

/-- When the constructor with an `entries` argument returns at all, it
loads the pairs by `putAll` into a table whose capacity is the (unchanged)
`initialCapacity`. -/
theorem mkLinkedHashMap_some_eq {es : List (String × V)} {cap : Nat}
    {lf : Rat} {m : LinkedHashMap V}
    (hm : mkLinkedHashMap (some es) cap lf = some m) :
    m = ({ mkNoEntries cap lf with
            capacity := cap,
            threshold := jsFloorMul (cap : Int) lf,
            buckets := List.replicate cap none } : LinkedHashMap V).putAll es := by
  unfold mkLinkedHashMap at hm
  by_cases hc : ((es.length : Int) > (mkNoEntries (V := V) cap lf).threshold)
  · exfalso
    revert hm
    simp [computeCapacity, hc]
  · revert hm
    simp only [computeCapacity, hc, if_neg, ite_false]
    intro hm
    exact (Option.some_inj.mp hm).symm

theorem reach_bucketsPos {m : LinkedHashMap V} (h : Reach m) :
    0 < m.buckets.length := by
  induction h with
  | mkNew cap lf hc => simpa [mkNoEntries] using hc
  | mkWith es cap lf m hc hm =>
      rw [mkLinkedHashMap_some_eq hm]
      apply putAll_bucketsPos
      simpa using hc
  | setStep m k v hr ih =>
      rcases set_buckets_length m k v with h' | h' <;> omega
  | delStep m k hr ih =>
      rw [delete_buckets_length]; exact ih
  | clearStep m m' hr hc ih =>
      unfold clear at hc
      split at hc
      · exact absurd hc (by simp)
      · rw [Option.some_inj] at hc
        subst hc
        unfold clearCore
        split
        · exact ih
        · simp only [List.length_replicate]
          omega

/-! ## Claim C9 (amended) -/

/-- C9 amended: the code enforces no minimum capacity (see
`C9_counterexample`; `11` is only a default argument), but whenever the
map is constructed with a *positive* initial capacity, every reachable
state keeps a non-empty bucket array, and `hash(key)` is then always a
valid bucket index in `[0, buckets.length)`. -/
theorem C9_amended_capacity_positive {m : LinkedHashMap V} (h : Reach m) :
    0 < m.buckets.length ∧ ∀ k, m.hash k < m.buckets.length :=
  ⟨reach_bucketsPos h, fun k => hash_lt m (reach_bucketsPos h) k⟩

/-- Witness for C9 at a concretely reachable state. -/
theorem C9_witness :
    0 < ((mkNoEntries (V := Nat) 11 lf34).set "a" 1).buckets.length ∧
    ∀ k, ((mkNoEntries (V := Nat) 11 lf34).set "a" 1).hash k <
      ((mkNoEntries (V := Nat) 11 lf34).set "a" 1).buckets.length :=
  C9_amended_capacity_positive
    (Reach.setStep _ "a" 1 (Reach.mkNew 11 lf34 (by decide)))

end LHMap

namespace LHMap

open LinkedHashMap

/-! ## The `size <= threshold` invariant (claim C8) -/

theorem jsFloorMul_lf34_nonneg (cap : Nat) : 0 ≤ jsFloorMul (cap : Int) lf34 := by
  show 0 ≤ Int.fdiv ((cap : Int) * 3) 4
  rw [Int.fdiv_eq_ediv _ (by norm_num)]
  exact Int.ediv_nonneg (by positivity) (by norm_num)

/-- Growing the table from `L` to `2L+1` gains at least one unit of
threshold (this is what makes a single rehash restore `size ≤ threshold`
at the default load factor). -/
theorem jsFloorMul_lf34_step {L : Nat} (h : 1 ≤ L) :
    jsFloorMul (L : Int) lf34 + 1 ≤ jsFloorMul ((L * 2 + 1 : Nat) : Int) lf34 := by
  show Int.fdiv ((L : Int) * 3) 4 + 1 ≤ Int.fdiv (((L * 2 + 1 : Nat) : Int) * 3) 4
  rw [Int.fdiv_eq_ediv _ (by norm_num), Int.fdiv_eq_ediv _ (by norm_num)]
  push_cast
  omega

theorem threshInv_mkNoEntries {cap : Nat} (h : 1 ≤ cap) :
    ThreshInv (mkNoEntries (V := V) cap lf34) := by
  refine ⟨jsFloorMul_lf34_nonneg cap, rfl, ?_, ?_⟩
  · simp [mkNoEntries]
  · simpa [mkNoEntries] using h

theorem threshInv_set (m : LinkedHashMap V) (k : String) (v : V)
    (h : ThreshInv m) : ThreshInv (m.set k v) := by
  obtain ⟨h1, h2, h3, h4⟩ := h
  unfold LinkedHashMap.set
  dsimp only
  cases hf : m.findEntry k m.arena.length (m.buckets.getD (m.hash k) none) with
  | some e => exact ⟨by simpa using h1, by simpa using h2, by simpa using h3, by simpa using h4⟩
  | none =>
      dsimp only
      by_cases hgt : m.size + 1 > m.threshold
      · rw [if_pos hgt]
        have hsz : m.size = m.threshold := by omega
        have hstep := jsFloorMul_lf34_step h4
        refine ⟨?_, ?_, ?_, ?_⟩
        · rw [addEntry_size, rehash_size, addEntry_threshold, rehash_threshold]
          show m.size + 1 ≤ jsFloorMul ((m.buckets.length * 2 + 1 : Nat) : Int) m.loadFactor
          rw [h2]
          omega
        · rw [addEntry_loadFactor, rehash_loadFactor]
          exact h2
        · rw [addEntry_threshold, rehash_threshold, addEntry_buckets_length,
            rehash_buckets_length, h2]
        · rw [addEntry_buckets_length, rehash_buckets_length]
          omega
      · rw [if_neg hgt]
        refine ⟨?_, by simpa using h2, ?_, ?_⟩
        · rw [addEntry_size, addEntry_threshold]
          show m.size + 1 ≤ m.threshold
          omega
        · rw [addEntry_threshold, addEntry_buckets_length]
          exact h3
        · rw [addEntry_buckets_length]
          exact h4

theorem threshInv_putAll (es : List (String × V)) :
    ∀ (m : LinkedHashMap V), ThreshInv m → ThreshInv (m.putAll es) := by
  induction es with
  | nil => intro m h; exact h
  | cons p rest ih =>
      intro m h
      exact ih (m.set p.1 p.2) (threshInv_set m p.1 p.2 h)

/-! ## Claim C8 (amended) -/

/-- C8 amended: with an *arbitrary* load factor the claimed invariant is
false (see `C8_counterexample`, load factor `0`); with the default load
factor `0.75` and any positive initial capacity, `size ≤ threshold` holds
after every `set` call of every sequence (every intermediate state is of
the quantified form, taking a prefix of `ops`). -/
theorem C8_amended_size_le_threshold (cap : Nat) (h : 1 ≤ cap)
    (ops : List (String × V)) :
    ((mkNoEntries (V := V) cap lf34).putAll ops).size ≤
      ((mkNoEntries (V := V) cap lf34).putAll ops).threshold :=
  (threshInv_putAll ops _ (threshInv_mkNoEntries h)).1

/-- Witness for C8 (amended) at the default capacity and a sequence that
crosses the first threshold. -/
theorem C8_witness :
    ((mkNoEntries (V := Nat) 11 lf34).putAll
        [("a", 1), ("b", 2), ("c", 3), ("d", 4), ("e", 5),
         ("f", 6), ("g", 7), ("h", 8), ("i", 9)]).size ≤
      ((mkNoEntries (V := Nat) 11 lf34).putAll
        [("a", 1), ("b", 2), ("c", 3), ("d", 4), ("e", 5),
         ("f", 6), ("g", 7), ("h", 8), ("i", 9)]).threshold :=
  C8_amended_size_le_threshold 11 (by decide) _

end LHMap

namespace LHMap

open LinkedHashMap

/-! ## Pointwise update lemmas -/

theorem updEnt_out {m : LinkedHashMap V} {i : Nat}
    (h : ¬ i < m.arena.length) (f : Entry V → Entry V) :
    m.updEnt i f = m := by
  unfold LinkedHashMap.updEnt
  have hs : m.arena.set i (f (m.ent i)) = m.arena :=
    List.set_eq_of_length_le (le_of_not_lt h)
  rw [hs]

theorem ent_updEnt_self {m : LinkedHashMap V} {i : Nat}
    (h : i < m.arena.length) (f : Entry V → Entry V) :
    (m.updEnt i f).ent i = f (m.ent i) := by
  unfold LinkedHashMap.updEnt LinkedHashMap.ent
  simp [List.getD_eq_getElem?_getD, List.getElem?_set_self h]

theorem ent_updEnt_ne {m : LinkedHashMap V} {i j : Nat} (h : j ≠ i)
    (f : Entry V → Entry V) :
    (m.updEnt i f).ent j = m.ent j := by
  unfold LinkedHashMap.updEnt LinkedHashMap.ent
  simp [List.getD_eq_getElem?_getD, List.getElem?_set_ne (Ne.symm h)]

theorem ent_upd_cases (m : LinkedHashMap V) (i : Nat) (f : Entry V → Entry V)
    (j : Nat) :
    (m.updEnt i f).ent j =
      if j = i ∧ i < m.arena.length then f (m.ent i) else m.ent j := by
  by_cases hj : j = i
  · subst hj
    by_cases hl : j < m.arena.length
    · rw [ent_updEnt_self hl, if_pos ⟨rfl, hl⟩]
    · rw [updEnt_out hl, if_neg (fun hc => hl hc.2)]
  · rw [ent_updEnt_ne hj, if_neg (fun hc => hj hc.1)]

/-- Reading below the old length after appending one entry. -/
theorem ent_arena_append_lt {m m' : LinkedHashMap V} {e : Entry V}
    (hA : m'.arena = m.arena ++ [e]) {j : Nat} (hj : j < m.arena.length) :
    m'.ent j = m.ent j := by
  unfold LinkedHashMap.ent
  rw [hA]
  simp [List.getD_eq_getElem?_getD, List.getElem?_append_left hj]

/-- Reading the appended entry itself. -/
theorem ent_arena_append_self {m m' : LinkedHashMap V} {e : Entry V}
    (hA : m'.arena = m.arena ++ [e]) :
    m'.ent m.arena.length = e := by
  unfold LinkedHashMap.ent
  rw [hA]
  simp [List.getD_eq_getElem?_getD, List.getElem?_concat_length]

/-! ## Chain (order-cycle) toolkit -/

/-- Transfer a `Chain` along a relation implication that needs to hold
only for members of the chain. -/
theorem chain_transfer {R S : Nat → Nat → Prop} :
    ∀ {a : Nat} {l : List Nat}, List.Chain R a l →
      (∀ p q, p ∈ a :: l → q ∈ l → R p q → S p q) → List.Chain S a l := by
  intro a l
  induction l generalizing a with
  | nil => intro _ _; exact List.Chain.nil
  | cons b t ih =>
      intro hc hpq
      cases hc with
      | cons hab ht =>
          exact List.Chain.cons (hpq a b (by simp) (by simp) hab)
            (ih ht (fun p q hp hq hr =>
              hpq p q (List.mem_cons_of_mem a hp) (List.mem_cons_of_mem b hq) hr))

/-- A nodup list of naturals bounded by `n` has at most `n` elements. -/
theorem nodup_length_le {l : List Nat} {n : Nat} (hnd : l.Nodup)
    (hb : ∀ x ∈ l, x < n) : l.length ≤ n := by
  have hsub : l ⊆ List.range n := fun x hx => List.mem_range.mpr (hb x hx)
  simpa using (List.subperm_of_subset hnd hsub).length_le

end LHMap

namespace LHMap

open LinkedHashMap

/-! ## Iteration reads off the cycle -/

theorem iterIds_eq (m : LinkedHashMap V) :
    ∀ (l : List Nat) (e fuel : Nat),
      List.Chain (OrdRel m) e (l ++ [headerId]) →
      (∀ x ∈ l, x ≠ headerId) →
      l.length ≤ fuel →
      m.iterIds ((m.ent e).after.getD headerId) fuel = l := by
  intro l
  induction l with
  | nil =>
      intro e fuel hc _ _
      have hR : OrdRel m e headerId ∧ True := by
        simpa [List.chain_cons] using hc
      rw [hR.1.1]
      cases fuel with
      | zero => rfl
      | succ n => simp [LinkedHashMap.iterIds]
  | cons x xs ih =>
      intro e fuel hc hne hlen
      have hc' : OrdRel m e x ∧ List.Chain (OrdRel m) x (xs ++ [headerId]) := by
        simpa [List.chain_cons] using hc
      cases fuel with
      | zero => exact absurd hlen (by simp)
      | succ n =>
          rw [hc'.1.1]
          show m.iterIds x (n + 1) = x :: xs
          rw [show m.iterIds x (n + 1) =
              if x = headerId then []
              else x :: m.iterIds ((m.ent x).after.getD headerId) n from rfl]
          rw [if_neg (hne x (by simp))]
          rw [ih x n hc'.2 (fun y hy => hne y (by simp [hy])) (by simpa using hlen)]

theorem orderIds_eq {m : LinkedHashMap V} {ord : List Nat}
    {chains : List (List Nat)} (hI : Inv m ord chains) :
    m.orderIds = ord := by
  have h0 : headerId ∉ ord := (List.nodup_cons.mp hI.nodup).1
  have hlen : ord.length ≤ m.arena.length := by
    have hb : ∀ x ∈ headerId :: ord, x < m.arena.length := by
      intro x hx
      rcases List.mem_cons.mp hx with h | h
      · subst h
        simpa [headerId] using hI.arenaPos
      · exact hI.ordValid x h
    have := nodup_length_le hI.nodup hb
    simp only [List.length_cons] at this
    omega
  exact iterIds_eq m ord headerId m.arena.length hI.cycle
    (fun x hx hx0 => h0 (hx0 ▸ hx)) hlen

theorem entriesList_eq {m : LinkedHashMap V} {ord : List Nat}
    {chains : List (List Nat)} (hI : Inv m ord chains) :
    m.entriesList = absList m ord := by
  unfold LinkedHashMap.entriesList absList
  rw [orderIds_eq hI]

/-! ## The chain scan reads off the bucket chain -/

theorem findEntry_eq (m : LinkedHashMap V) (k : String) :
    ∀ (chain : List Nat) (h : Option Nat) (fuel : Nat),
      NextPath m h chain → chain.length ≤ fuel →
      m.findEntry k fuel h =
        chain.find? (fun i => decide ((m.ent i).key = some k)) := by
  intro chain
  induction chain with
  | nil =>
      intro h fuel hp _
      have hh : h = none := hp
      rw [hh, findEntry_none]
      rfl
  | cons x xs ih =>
      intro h fuel hp hlen
      have hp' : h = some x ∧ NextPath m (m.ent x).next xs := hp
      cases fuel with
      | zero => exact absurd hlen (by simp)
      | succ n =>
          rw [hp'.1]
          rw [show m.findEntry k (n + 1) (some x) =
              if (m.ent x).key = some k then some x
              else m.findEntry k n (m.ent x).next from rfl]
          by_cases hk : (m.ent x).key = some k
          · rw [if_pos hk, List.find?_cons_of_pos _ (by simpa using hk)]
          · rw [if_neg hk, List.find?_cons_of_neg _ (by simpa using hk),
              ih _ n hp'.2 (by simpa using hlen)]

/-- Any single chain is nodup and bounded, so its length fits under the
arena-length fuel. -/
theorem chain_fits {m : LinkedHashMap V} {ord : List Nat}
    {chains : List (List Nat)} (hI : Inv m ord chains) {b : Nat}
    (hb : b < m.buckets.length) :
    (chains.getD b []).length ≤ m.arena.length := by
  have hmem : ∀ x ∈ chains.getD b [], x ∈ chains.flatten := by
    intro x hx
    have hble : b < chains.length := by rw [hI.chainsLen]; exact hb
    have : chains.getD b [] ∈ chains := by
      rw [List.getD_eq_getElem?_getD, List.getElem?_eq_getElem hble]
      exact List.getElem_mem hble
    exact List.mem_flatten.mpr ⟨_, this, hx⟩
  have hnd : (chains.getD b []).Nodup := by
    have hble : b < chains.length := by rw [hI.chainsLen]; exact hb
    have hmem' : chains.getD b [] ∈ chains := by
      rw [List.getD_eq_getElem?_getD, List.getElem?_eq_getElem hble]
      exact List.getElem_mem hble
    exact (List.nodup_flatten.mp hI.chainsNodup).1 _ hmem'
  refine nodup_length_le hnd ?_
  intro x hx
  exact hI.ordValid x ((hI.sync x).mp (hmem x hx))

/-- The chain scan of `get`/`has`/`set` computed against the invariant. -/
theorem inv_findEntry {m : LinkedHashMap V} {ord : List Nat}
    {chains : List (List Nat)} (hI : Inv m ord chains) (k : String) :
    m.findEntry k m.arena.length (m.buckets.getD (m.hash k) none) =
      (chains.getD (m.hash k) []).find?
        (fun i => decide ((m.ent i).key = some k)) := by
  have hb : m.hash k < m.buckets.length := hash_lt m hI.bucketsPos k
  exact findEntry_eq m k _ _ _ (hI.chainsPath _ hb) (chain_fits hI hb)

/-- An entry of `ord` whose key is `k` is chained in bucket `hash k`. -/
theorem inv_key_bucket {m : LinkedHashMap V} {ord : List Nat}
    {chains : List (List Nat)} (hI : Inv m ord chains) {i : Nat} {k : String}
    (hi : i ∈ ord) (hk : (m.ent i).key = some k) :
    i ∈ chains.getD (m.hash k) [] := by
  have hifl : i ∈ chains.flatten := (hI.sync i).mpr hi
  rcases List.mem_flatten.mp hifl with ⟨p, hp, hip⟩
  rcases List.mem_iff_getElem.mp hp with ⟨b, hble, rfl⟩
  have hble' : b < m.buckets.length := by rw [← hI.chainsLen]; exact hble
  have hgd : chains.getD b [] = chains[b] := by
    rw [List.getD_eq_getElem?_getD, List.getElem?_eq_getElem hble]
    rfl
  have := hI.chainsHash b hble' i (by rw [hgd]; exact hip)
  rw [hk] at this
  have hbh : b = m.hash k := by
    rw [← this]
    rfl
  rw [← hbh, hgd]
  exact hip

theorem has_iff {m : LinkedHashMap V} {ord : List Nat}
    {chains : List (List Nat)} (hI : Inv m ord chains) (k : String) :
    m.has k = true ↔ ∃ i ∈ ord, (m.ent i).key = some k := by
  unfold LinkedHashMap.has
  rw [inv_findEntry hI k]
  rw [Option.isSome_iff_exists]
  constructor
  · rintro ⟨i, hfind⟩
    refine ⟨i, ?_, ?_⟩
    · have hmemchain := List.mem_of_find?_eq_some hfind
      have hble : m.hash k < chains.length := by
        rw [hI.chainsLen]; exact hash_lt m hI.bucketsPos k
      have : i ∈ chains.flatten := by
        refine List.mem_flatten.mpr ⟨chains.getD (m.hash k) [], ?_, hmemchain⟩
        rw [List.getD_eq_getElem?_getD, List.getElem?_eq_getElem hble]
        exact List.getElem_mem hble
      exact (hI.sync i).mp this
    · simpa using List.find?_some hfind
  · rintro ⟨i, hi, hk⟩
    have hchain := inv_key_bucket hI hi hk
    have : ((chains.getD (m.hash k) []).find?
        (fun i => decide ((m.ent i).key = some k))).isSome := by
      rw [List.find?_isSome]
      exact ⟨i, hchain, by simpa using hk⟩
    rcases Option.isSome_iff_exists.mp this with ⟨j, hj⟩
    exact ⟨j, hj⟩

end LHMap

namespace LHMap

open LinkedHashMap

/-- Membership in a bucket chain implies membership in `ord`. -/
theorem chain_mem_ord {m : LinkedHashMap V} {ord : List Nat}
    {chains : List (List Nat)} (hI : Inv m ord chains) {b : Nat}
    (hb : b < m.buckets.length) {i : Nat} (hi : i ∈ chains.getD b []) :
    i ∈ ord := by
  have hble : b < chains.length := by rw [hI.chainsLen]; exact hb
  have hmem : chains.getD b [] ∈ chains := by
    rw [List.getD_eq_getElem?_getD, List.getElem?_eq_getElem hble]
    exact List.getElem_mem hble
  exact (hI.sync i).mp (List.mem_flatten.mpr ⟨_, hmem, hi⟩)

/-- `get` is association-list lookup on the order-list content. -/
theorem get_eq_assoc {m : LinkedHashMap V} {ord : List Nat}
    {chains : List (List Nat)} (hI : Inv m ord chains) (k : String) :
    m.get k = assocGet k (absList m ord) := by
  unfold LinkedHashMap.get assocGet
  rw [inv_findEntry hI k, absList, List.find?_map]
  have hpred : ((fun p : Option String × Option V => decide (p.1 = some k)) ∘
      (fun i => ((m.ent i).key, (m.ent i).value))) =
      fun i => decide ((m.ent i).key = some k) := rfl
  rw [hpred]
  cases hc : (chains.getD (m.hash k) []).find?
      (fun i => decide ((m.ent i).key = some k)) with
  | some i =>
      have hki : (m.ent i).key = some k := by simpa using List.find?_some hc
      have hio : i ∈ ord :=
        chain_mem_ord hI (hash_lt m hI.bucketsPos k)
          (List.mem_of_find?_eq_some hc)
      have hfo : ord.find? (fun i => decide ((m.ent i).key = some k)) = some i := by
        have hs : (ord.find? (fun i => decide ((m.ent i).key = some k))).isSome := by
          rw [List.find?_isSome]
          exact ⟨i, hio, by simpa using hki⟩
        rcases Option.isSome_iff_exists.mp hs with ⟨j, hj⟩
        have hkj : (m.ent j).key = some k := by simpa using List.find?_some hj
        have : j = i :=
          List.inj_on_of_nodup_map hI.keysNodup
            (List.mem_of_find?_eq_some hj) hio (by rw [hkj, hki])
        rw [hj, this]
      rw [hfo]
      rfl
  | none =>
      have hfo : ord.find? (fun i => decide ((m.ent i).key = some k)) = none := by
        rw [List.find?_eq_none]
        intro j hj hpj
        have hkj : (m.ent j).key = some k := by simpa using hpj
        exact (List.find?_eq_none.mp hc j (inv_key_bucket hI hj hkj))
          (by simpa using hkj)
      rw [hfo]
      rfl

/-! ## Explicit forms of the pointer surgery -/

/-- `Entry.remove` on an entry whose neighbours are known. -/
theorem removeEntry_eq {m : LinkedHashMap V} {i p n : Nat}
    (hb : (m.ent i).before = some p) (ha : (m.ent i).after = some n)
    (hpi : i ≠ p) :
    m.removeEntry i =
      (m.updEnt p (fun en => { en with after := some n })).updEnt n
        (fun en => { en with before := some p }) := by
  unfold LinkedHashMap.removeEntry
  dsimp only
  simp only [hb, ha]
  rw [ent_updEnt_ne hpi]
  simp only [hb, ha]

/-- `Entry.addBefore` on a target whose `before` link is known. -/
theorem addBefore_eq {m : LinkedHashMap V} {i e L : Nat}
    (hi : i < m.arena.length) (hie : i ≠ e)
    (hL : (m.ent e).before = some L) (hLi : L ≠ i) :
    m.addBefore i e =
      (((m.updEnt i fun en => { en with after := some e }).updEnt i
          fun en => { en with before := some L }).updEnt L
          fun en => { en with after := some i }).updEnt e
          fun en => { en with before := some i } := by
  unfold LinkedHashMap.addBefore
  dsimp only
  rw [ent_updEnt_ne (Ne.symm hie), hL]
  rw [ent_updEnt_self (by simpa using hi)]
  dsimp only
  rw [ent_updEnt_ne (Ne.symm hLi)]
  rw [ent_updEnt_self (by simpa using hi)]
  dsimp only
  rw [ent_updEnt_self hi]

end LHMap

namespace LHMap

open LinkedHashMap

/-! ## Entry-level effect of `addBefore _ header` -/

/-- Splitting a non-empty cycle at its newest entry `L`. -/
theorem cycle_split_concat {m : LinkedHashMap V} {l : List Nat} {L : Nat}
    (hc : List.Chain (OrdRel m) headerId ((l ++ [L]) ++ [headerId])) :
    List.Chain (OrdRel m) headerId (l ++ [L]) ∧
    (m.ent L).after = some headerId ∧
    (m.ent headerId).before = some L := by
  have hc' : List.Chain (OrdRel m) headerId (l ++ [L]) ∧
      List.Chain (OrdRel m) L [headerId] := by
    rw [← List.chain_split]
    simpa [List.append_assoc] using hc
  have hR : OrdRel m L headerId ∧ True := by
    simpa [List.chain_cons] using hc'.2
  exact ⟨hc'.1, hR.1.1, hR.1.2⟩

/-- Reading the header links of an empty cycle. -/
theorem cycle_nil_links {m : LinkedHashMap V}
    (hc : List.Chain (OrdRel m) headerId ([] ++ [headerId])) :
    (m.ent headerId).after = some headerId ∧
    (m.ent headerId).before = some headerId := by
  have hR : OrdRel m headerId headerId ∧ True := by
    simpa [List.chain_cons] using hc
  exact ⟨hR.1.1, hR.1.2⟩

/-- Effect of `addBefore i header` on each entry, when the newest entry
`L` is distinct from the header. -/
theorem addBefore_ent_of_ne {m : LinkedHashMap V} {i L : Nat}
    (hi : i < m.arena.length)
    (hL : (m.ent headerId).before = some L) (hLlen : L < m.arena.length)
    (h0len : headerId < m.arena.length)
    (hi0 : i ≠ headerId) (hLi : L ≠ i) (hL0 : L ≠ headerId) :
    (m.addBefore i headerId).ent i =
        { m.ent i with before := some L, after := some headerId } ∧
    (m.addBefore i headerId).ent headerId =
        { m.ent headerId with before := some i } ∧
    (m.addBefore i headerId).ent L = { m.ent L with after := some i } ∧
    (∀ j, j ≠ i → j ≠ headerId → j ≠ L →
      (m.addBefore i headerId).ent j = m.ent j) := by
  rw [addBefore_eq hi hi0 hL hLi]
  refine ⟨?_, ?_, ?_, ?_⟩
  · rw [ent_updEnt_ne hi0, ent_updEnt_ne (Ne.symm hLi),
      ent_updEnt_self (by simpa using hi), ent_updEnt_self hi]
  · rw [ent_updEnt_self (by simpa using h0len),
      ent_updEnt_ne (Ne.symm hL0), ent_updEnt_ne (Ne.symm hi0),
      ent_updEnt_ne (Ne.symm hi0)]
  · rw [ent_updEnt_ne hL0, ent_updEnt_self (by simpa using hLlen),
      ent_updEnt_ne hLi, ent_updEnt_ne hLi]
  · intro j hji hj0 hjL
    rw [ent_updEnt_ne hj0, ent_updEnt_ne hjL, ent_updEnt_ne hji,
      ent_updEnt_ne hji]

/-- Effect of `addBefore i header` on each entry, when the order list is
empty (the header is its own `before`). -/
theorem addBefore_ent_of_eq {m : LinkedHashMap V} {i : Nat}
    (hi : i < m.arena.length)
    (hL : (m.ent headerId).before = some headerId)
    (h0len : headerId < m.arena.length) (hi0 : i ≠ headerId) :
    (m.addBefore i headerId).ent i =
        { m.ent i with before := some headerId, after := some headerId } ∧
    (m.addBefore i headerId).ent headerId =
        { m.ent headerId with before := some i, after := some i } ∧
    (∀ j, j ≠ i → j ≠ headerId →
      (m.addBefore i headerId).ent j = m.ent j) := by
  rw [addBefore_eq hi hi0 hL (Ne.symm hi0)]
  refine ⟨?_, ?_, ?_⟩
  · rw [ent_updEnt_ne hi0, ent_updEnt_ne hi0,
      ent_updEnt_self (by simpa using hi), ent_updEnt_self hi]
  · rw [ent_updEnt_self (by simpa using h0len),
      ent_updEnt_self (by simpa using h0len),
      ent_updEnt_ne (Ne.symm hi0), ent_updEnt_ne (Ne.symm hi0)]
  · intro j hji hj0
    rw [ent_updEnt_ne hj0, ent_updEnt_ne hj0, ent_updEnt_ne hji,
      ent_updEnt_ne hji]

end LHMap

namespace LHMap

open LinkedHashMap

/-! ## Single-field updates preserve the other fields -/

@[simp] theorem ent_updAfter_key (m : LinkedHashMap V) (i : Nat) (x : Option Nat)
    (j : Nat) :
    ((m.updEnt i fun en => { en with after := x }).ent j).key = (m.ent j).key := by
  rw [ent_upd_cases]
  split
  · rename_i h
    obtain ⟨rfl, -⟩ := h
    rfl
  · rfl

@[simp] theorem ent_updAfter_value (m : LinkedHashMap V) (i : Nat) (x : Option Nat)
    (j : Nat) :
    ((m.updEnt i fun en => { en with after := x }).ent j).value = (m.ent j).value := by
  rw [ent_upd_cases]
  split
  · rename_i h
    obtain ⟨rfl, -⟩ := h
    rfl
  · rfl

@[simp] theorem ent_updAfter_next (m : LinkedHashMap V) (i : Nat) (x : Option Nat)
    (j : Nat) :
    ((m.updEnt i fun en => { en with after := x }).ent j).next = (m.ent j).next := by
  rw [ent_upd_cases]
  split
  · rename_i h
    obtain ⟨rfl, -⟩ := h
    rfl
  · rfl

@[simp] theorem ent_updAfter_before (m : LinkedHashMap V) (i : Nat) (x : Option Nat)
    (j : Nat) :
    ((m.updEnt i fun en => { en with after := x }).ent j).before = (m.ent j).before := by
  rw [ent_upd_cases]
  split
  · rename_i h
    obtain ⟨rfl, -⟩ := h
    rfl
  · rfl

@[simp] theorem ent_updBefore_key (m : LinkedHashMap V) (i : Nat) (x : Option Nat)
    (j : Nat) :
    ((m.updEnt i fun en => { en with before := x }).ent j).key = (m.ent j).key := by
  rw [ent_upd_cases]
  split
  · rename_i h
    obtain ⟨rfl, -⟩ := h
    rfl
  · rfl

@[simp] theorem ent_updBefore_value (m : LinkedHashMap V) (i : Nat) (x : Option Nat)
    (j : Nat) :
    ((m.updEnt i fun en => { en with before := x }).ent j).value = (m.ent j).value := by
  rw [ent_upd_cases]
  split
  · rename_i h
    obtain ⟨rfl, -⟩ := h
    rfl
  · rfl

@[simp] theorem ent_updBefore_next (m : LinkedHashMap V) (i : Nat) (x : Option Nat)
    (j : Nat) :
    ((m.updEnt i fun en => { en with before := x }).ent j).next = (m.ent j).next := by
  rw [ent_upd_cases]
  split
  · rename_i h
    obtain ⟨rfl, -⟩ := h
    rfl
  · rfl

@[simp] theorem ent_updBefore_after (m : LinkedHashMap V) (i : Nat) (x : Option Nat)
    (j : Nat) :
    ((m.updEnt i fun en => { en with before := x }).ent j).after = (m.ent j).after := by
  rw [ent_upd_cases]
  split
  · rename_i h
    obtain ⟨rfl, -⟩ := h
    rfl
  · rfl

@[simp] theorem ent_updNext_key (m : LinkedHashMap V) (i : Nat) (x : Option Nat)
    (j : Nat) :
    ((m.updEnt i fun en => { en with next := x }).ent j).key = (m.ent j).key := by
  rw [ent_upd_cases]
  split
  · rename_i h
    obtain ⟨rfl, -⟩ := h
    rfl
  · rfl

@[simp] theorem ent_updNext_value (m : LinkedHashMap V) (i : Nat) (x : Option Nat)
    (j : Nat) :
    ((m.updEnt i fun en => { en with next := x }).ent j).value = (m.ent j).value := by
  rw [ent_upd_cases]
  split
  · rename_i h
    obtain ⟨rfl, -⟩ := h
    rfl
  · rfl

@[simp] theorem ent_updNext_before (m : LinkedHashMap V) (i : Nat) (x : Option Nat)
    (j : Nat) :
    ((m.updEnt i fun en => { en with next := x }).ent j).before = (m.ent j).before := by
  rw [ent_upd_cases]
  split
  · rename_i h
    obtain ⟨rfl, -⟩ := h
    rfl
  · rfl

@[simp] theorem ent_updNext_after (m : LinkedHashMap V) (i : Nat) (x : Option Nat)
    (j : Nat) :
    ((m.updEnt i fun en => { en with next := x }).ent j).after = (m.ent j).after := by
  rw [ent_upd_cases]
  split
  · rename_i h
    obtain ⟨rfl, -⟩ := h
    rfl
  · rfl

@[simp] theorem ent_updValue_key (m : LinkedHashMap V) (i : Nat) (x : Option V)
    (j : Nat) :
    ((m.updEnt i fun en => { en with value := x }).ent j).key = (m.ent j).key := by
  rw [ent_upd_cases]
  split
  · rename_i h
    obtain ⟨rfl, -⟩ := h
    rfl
  · rfl

@[simp] theorem ent_updValue_next (m : LinkedHashMap V) (i : Nat) (x : Option V)
    (j : Nat) :
    ((m.updEnt i fun en => { en with value := x }).ent j).next = (m.ent j).next := by
  rw [ent_upd_cases]
  split
  · rename_i h
    obtain ⟨rfl, -⟩ := h
    rfl
  · rfl

@[simp] theorem ent_updValue_before (m : LinkedHashMap V) (i : Nat) (x : Option V)
    (j : Nat) :
    ((m.updEnt i fun en => { en with value := x }).ent j).before = (m.ent j).before := by
  rw [ent_upd_cases]
  split
  · rename_i h
    obtain ⟨rfl, -⟩ := h
    rfl
  · rfl

@[simp] theorem ent_updValue_after (m : LinkedHashMap V) (i : Nat) (x : Option V)
    (j : Nat) :
    ((m.updEnt i fun en => { en with value := x }).ent j).after = (m.ent j).after := by
  rw [ent_upd_cases]
  split
  · rename_i h
    obtain ⟨rfl, -⟩ := h
    rfl
  · rfl

/-- `addBefore` rewires only `before`/`after` links. -/
theorem addBefore_keeps (m : LinkedHashMap V) (i e j : Nat) :
    ((m.addBefore i e).ent j).key = (m.ent j).key ∧
    ((m.addBefore i e).ent j).value = (m.ent j).value ∧
    ((m.addBefore i e).ent j).next = (m.ent j).next := by
  unfold LinkedHashMap.addBefore
  dsimp only
  split <;> split <;> refine ⟨?_, ?_, ?_⟩ <;> simp

/-- `Entry.remove` rewires only `before`/`after` links. -/
theorem removeEntry_keeps (m : LinkedHashMap V) (i j : Nat) :
    ((m.removeEntry i).ent j).key = (m.ent j).key ∧
    ((m.removeEntry i).ent j).value = (m.ent j).value ∧
    ((m.removeEntry i).ent j).next = (m.ent j).next := by
  unfold LinkedHashMap.removeEntry
  dsimp only
  split <;> split <;> refine ⟨?_, ?_, ?_⟩ <;> simp

/-- The rehash loop rewires only `next` links (and bucket heads). -/
theorem rehashLoop_keeps (fuel : Nat) :
    ∀ (e : Nat) (m : LinkedHashMap V) (j : Nat),
      ((m.rehashLoop e fuel).ent j).key = (m.ent j).key ∧
      ((m.rehashLoop e fuel).ent j).value = (m.ent j).value ∧
      ((m.rehashLoop e fuel).ent j).before = (m.ent j).before ∧
      ((m.rehashLoop e fuel).ent j).after = (m.ent j).after := by
  induction fuel with
  | zero => intro e m j; exact ⟨rfl, rfl, rfl, rfl⟩
  | succ n ih =>
      intro e m j
      by_cases he : e = headerId
      · simp [LinkedHashMap.rehashLoop, he]
      · rw [show m.rehashLoop e (n + 1) =
            (let idx := m.hash ((m.ent e).key.getD "");
             let m1 := m.updEnt e fun en =>
               { en with next := m.buckets.getD idx none };
             let m2 := { m1 with buckets := m1.buckets.set idx (some e) };
             m2.rehashLoop ((m2.ent e).after.getD headerId) n) from by
          rw [show m.rehashLoop e (n + 1) =
              if e = headerId then m else _ from rfl, if_neg he]]
        dsimp only
        have hm2 : ∀ j', ({ m.updEnt e fun en =>
            { en with next := m.buckets.getD (m.hash ((m.ent e).key.getD "")) none } with
            buckets := (m.updEnt e fun en =>
              { en with next := m.buckets.getD (m.hash ((m.ent e).key.getD "")) none }).buckets.set
              (m.hash ((m.ent e).key.getD "")) (some e) } : LinkedHashMap V).ent j' =
            (m.updEnt e fun en =>
              { en with next := m.buckets.getD (m.hash ((m.ent e).key.getD "")) none }).ent j' :=
          fun j' => rfl
        rcases ih _ _ j with ⟨h1, h2, h3, h4⟩
        rw [h1, h2, h3, h4, hm2 j]
        refine ⟨?_, ?_, ?_, ?_⟩ <;> simp

/-- `rehash` rewires only `next` links and the bucket table. -/
theorem rehash_keeps (m : LinkedHashMap V) (j : Nat) :
    ((m.rehash).ent j).key = (m.ent j).key ∧
    ((m.rehash).ent j).value = (m.ent j).value ∧
    ((m.rehash).ent j).before = (m.ent j).before ∧
    ((m.rehash).ent j).after = (m.ent j).after := by
  unfold LinkedHashMap.rehash
  dsimp only
  rcases rehashLoop_keeps m.arena.length _ _ j with ⟨h1, h2, h3, h4⟩
  rw [h1, h2, h3, h4]
  exact ⟨rfl, rfl, rfl, rfl⟩

end LHMap

namespace LHMap

open LinkedHashMap

/-- Linking a fresh entry `i` directly before the header appends it to the
order cycle. -/
theorem cycle_addBefore {m : LinkedHashMap V} {ord : List Nat} {i : Nat}
    (hc : List.Chain (OrdRel m) headerId (ord ++ [headerId]))
    (hnd : (headerId :: ord).Nodup)
    (hv : ∀ x ∈ headerId :: ord, x < m.arena.length)
    (hi : i < m.arena.length)
    (hfresh : i ∉ headerId :: ord) :
    List.Chain (OrdRel (m.addBefore i headerId)) headerId
      ((ord ++ [i]) ++ [headerId]) := by
  have h0len : headerId < m.arena.length := hv _ (by simp)
  have hi0 : i ≠ headerId := by
    intro h
    exact hfresh (by simp [h])
  have hiord : i ∉ ord := by
    intro h
    exact hfresh (by simp [h])
  rcases List.eq_nil_or_concat ord with rfl | ⟨l, L, rfl⟩
  · have hlinks := cycle_nil_links hc
    obtain ⟨hEi, hE0, hother⟩ := addBefore_ent_of_eq hi hlinks.2 h0len hi0
    exact List.Chain.cons ⟨by rw [hE0], by rw [hEi]⟩
      (List.Chain.cons ⟨by rw [hEi], by rw [hE0]⟩ List.Chain.nil)
  · simp only [List.concat_eq_append] at hc hnd hv hiord ⊢
    have h0ord : headerId ∉ l ++ [L] := (List.nodup_cons.mp hnd).1
    obtain ⟨hcl, hLafter, h0before⟩ := cycle_split_concat hc
    have hLmem : L ∈ l ++ [L] := by simp
    have hLlen : L < m.arena.length := hv L (by simp)
    have hL0 : L ≠ headerId := by
      intro h
      exact h0ord (h ▸ hLmem)
    have hLi : L ≠ i := by
      intro h
      exact hiord (h ▸ hLmem)
    obtain ⟨hEi, hE0, hEL, hother⟩ :=
      addBefore_ent_of_ne hi h0before hLlen h0len hi0 hLi hL0
    have haft : ∀ p, p ≠ i → p ≠ L →
        ((m.addBefore i headerId).ent p).after = (m.ent p).after := by
      intro p hpi hpL
      by_cases hp0 : p = headerId
      · subst hp0
        rw [hE0]
      · rw [hother p hpi hp0 hpL]
    have hbef : ∀ q, q ≠ i → q ≠ headerId →
        ((m.addBefore i headerId).ent q).before = (m.ent q).before := by
      intro q hqi hq0
      by_cases hqL : q = L
      · subst hqL
        rw [hEL]
      · rw [hother q hqi hq0 hqL]
    rw [List.append_assoc (l ++ [L]) [i] [headerId]]
    refine List.chain_split.mpr ⟨?_, ?_⟩
    · rw [List.append_assoc l [L] [i]]
      refine List.chain_split.mpr ⟨?_, ?_⟩
      · refine chain_transfer hcl ?_
        intro p q hp hq hR
        have hpi : p ≠ i := by
          intro h
          exact hfresh (by simpa [h] using hp)
        have hqi : q ≠ i := by
          intro h
          exact hiord (h ▸ hq)
        have hq0 : q ≠ headerId := by
          intro h
          exact h0ord (h ▸ hq)
        have hpL : p ≠ L := by
          intro h
          subst h
          have : some q = some headerId := by rw [← hR.1, hLafter]
          exact hq0 (Option.some_inj.mp this)
        exact ⟨by rw [haft p hpi hpL]; exact hR.1,
               by rw [hbef q hqi hq0]; exact hR.2⟩
      · exact List.Chain.cons ⟨by rw [hEL], by rw [hEi]⟩ List.Chain.nil
    · exact List.Chain.cons ⟨by rw [hEi], by rw [hE0]⟩ List.Chain.nil

end LHMap

namespace LHMap

open LinkedHashMap

/-! ## Entry-level effect of `Entry.remove` -/

theorem removeEntry_ent_of_ne {m : LinkedHashMap V} {i p n : Nat}
    (hb : (m.ent i).before = some p) (ha : (m.ent i).after = some n)
    (hip : i ≠ p) (hplen : p < m.arena.length) (hnlen : n < m.arena.length)
    (hpn : p ≠ n) :
    (m.removeEntry i).ent p = { m.ent p with after := some n } ∧
    (m.removeEntry i).ent n = { m.ent n with before := some p } ∧
    (∀ j, j ≠ p → j ≠ n → (m.removeEntry i).ent j = m.ent j) := by
  rw [removeEntry_eq hb ha hip]
  refine ⟨?_, ?_, ?_⟩
  · rw [ent_updEnt_ne hpn, ent_updEnt_self hplen]
  · rw [ent_updEnt_self (by simpa using hnlen), ent_updEnt_ne (Ne.symm hpn)]
  · intro j hjp hjn
    rw [ent_updEnt_ne hjn, ent_updEnt_ne hjp]

theorem removeEntry_ent_of_eq {m : LinkedHashMap V} {i p : Nat}
    (hb : (m.ent i).before = some p) (ha : (m.ent i).after = some p)
    (hip : i ≠ p) (hplen : p < m.arena.length) :
    (m.removeEntry i).ent p =
      { m.ent p with before := some p, after := some p } ∧
    (∀ j, j ≠ p → (m.removeEntry i).ent j = m.ent j) := by
  rw [removeEntry_eq hb ha hip]
  refine ⟨?_, ?_⟩
  · rw [ent_updEnt_self (by simpa using hplen), ent_updEnt_self hplen]
  · intro j hjp
    rw [ent_updEnt_ne hjp, ent_updEnt_ne hjp]

/-- Transfer a chain to a state that changed only the `after` link of
`pnode` and the `before` link of `nnode`, when `pnode` cannot be a chain
source inside `T` and `nnode` does not occur in `T`. -/
theorem chain_transfer_frame {m m' : LinkedHashMap V} {a pnode nnode : Nat}
    {T : List Nat}
    (hc : List.Chain (OrdRel m) a T)
    (hA : ∀ x, x ≠ pnode → (m'.ent x).after = (m.ent x).after)
    (hB : ∀ x, x ≠ nnode → (m'.ent x).before = (m.ent x).before)
    (hpvac : ∀ q, q ∈ T → OrdRel m pnode q → False)
    (hnvac : nnode ∉ T) :
    List.Chain (OrdRel m') a T := by
  refine chain_transfer hc ?_
  intro p q hp hq hR
  have hpp : p ≠ pnode := fun h => hpvac q hq (h ▸ hR)
  have hqn : q ≠ nnode := fun h => hnvac (h ▸ hq)
  exact ⟨by rw [hA p hpp]; exact hR.1, by rw [hB q hqn]; exact hR.2⟩

/-- Unlinking entry `i` removes it from the order cycle. -/
theorem cycle_removeEntry {m : LinkedHashMap V} {l1 l2 : List Nat} {i : Nat}
    (hc : List.Chain (OrdRel m) headerId ((l1 ++ i :: l2) ++ [headerId]))
    (hnd : (headerId :: (l1 ++ i :: l2)).Nodup)
    (hv : ∀ x ∈ headerId :: (l1 ++ i :: l2), x < m.arena.length) :
    List.Chain (OrdRel (m.removeEntry i)) headerId
      ((l1 ++ l2) ++ [headerId]) := by
  have h0len : headerId < m.arena.length := hv _ (by simp)
  have h0mem : headerId ∉ l1 ++ i :: l2 := (List.nodup_cons.mp hnd).1
  have h0l1 : headerId ∉ l1 := fun h => h0mem (by simp [h])
  have h0l2 : headerId ∉ l2 := fun h => h0mem (by simp [h])
  have hi0 : i ≠ headerId := fun h => h0mem (by simp [h])
  have hnd' : (l1 ++ i :: l2).Nodup := (List.nodup_cons.mp hnd).2
  have hndm : (i :: (l1 ++ l2)).Nodup := List.nodup_middle.mp hnd'
  have hil12 : i ∉ l1 ++ l2 := (List.nodup_cons.mp hndm).1
  have hil1 : i ∉ l1 := fun h => hil12 (by simp [h])
  have hil2 : i ∉ l2 := fun h => hil12 (by simp [h])
  have hnd12 : (l1 ++ l2).Nodup := (List.nodup_cons.mp hndm).2
  obtain ⟨hcl1, hcil⟩ :
      List.Chain (OrdRel m) headerId (l1 ++ [i]) ∧
      List.Chain (OrdRel m) i (l2 ++ [headerId]) := by
    rw [← List.chain_split]
    simpa [List.append_assoc] using hc
  rcases List.eq_nil_or_concat l1 with rfl | ⟨l1h, P, rfl⟩
  · -- the removed entry is the oldest: its `before` is the header
    have hR0i : OrdRel m headerId i ∧ True := by
      simpa [List.chain_cons] using hcl1
    have hb : (m.ent i).before = some headerId := hR0i.1.2
    cases l2 with
    | nil =>
        have hRi0 : OrdRel m i headerId ∧ True := by
          simpa [List.chain_cons] using hcil
        obtain ⟨hE0, hother⟩ :=
          removeEntry_ent_of_eq hb hRi0.1.1 hi0 h0len
        exact List.Chain.cons ⟨by rw [hE0], by rw [hE0]⟩ List.Chain.nil
    | cons n2 t2 =>
        have hsplit : OrdRel m i n2 ∧
            List.Chain (OrdRel m) n2 (t2 ++ [headerId]) := by
          simpa [List.chain_cons] using hcil
        have hn2len : n2 < m.arena.length := hv n2 (by simp)
        have hn20 : n2 ≠ headerId := fun h => h0l2 (h ▸ by simp)
        obtain ⟨hEp, hEn, hother⟩ :=
          removeEntry_ent_of_ne hb hsplit.1.1 hi0 h0len hn2len
            (Ne.symm hn20)
        have hA : ∀ x, x ≠ headerId →
            ((m.removeEntry i).ent x).after = (m.ent x).after := by
          intro x hx
          by_cases hxn : x = n2
          · subst hxn; rw [hEn]
          · rw [hother x hx hxn]
        have hB : ∀ x, x ≠ n2 →
            ((m.removeEntry i).ent x).before = (m.ent x).before := by
          intro x hx
          by_cases hx0 : x = headerId
          · subst hx0; rw [hEp]
          · rw [hother x hx0 hx]
        refine List.Chain.cons ⟨by rw [hEp], by rw [hEn]⟩ ?_
        refine chain_transfer_frame hsplit.2 hA hB ?_ ?_
        · intro q hq hRq
          have hqi : q = i := by
            have : some i = some q := by rw [← hR0i.1.1, hRq.1]
            exact (Option.some_inj.mp this).symm
          subst hqi
          rcases List.mem_append.mp hq with h | h
          · exact hil2 (by simp [h])
          · simp at h
            exact hi0 h
        · intro h
          rcases List.mem_append.mp h with h | h
          · exact (List.nodup_cons.mp ((List.nodup_cons.mp hnd').2)).1 h
          · simp at h
            exact hn20 h
  · -- the removed entry has a real predecessor P
    simp only [List.concat_eq_append] at hcl1 hc hnd hv h0mem h0l1 hil1 hnd' hndm hil12 hnd12 ⊢
    obtain ⟨hcl1h, hRPi⟩ :
        List.Chain (OrdRel m) headerId (l1h ++ [P]) ∧
        List.Chain (OrdRel m) P [i] := by
      rw [← List.chain_split]
      simpa [List.append_assoc] using hcl1
    have hRPi' : OrdRel m P i ∧ True := by
      simpa [List.chain_cons] using hRPi
    have hb : (m.ent i).before = some P := hRPi'.1.2
    have hPl1 : P ∈ l1h ++ [P] := by simp
    have hPlen : P < m.arena.length := hv P (by simp)
    have hP0 : P ≠ headerId := fun h => h0l1 (h ▸ hPl1)
    have hiP : i ≠ P := fun h => hil1 (h ▸ hPl1)
    have hPl2 : P ∉ l2 := by
      intro h
      have := List.disjoint_of_nodup_append hnd12
      exact this hPl1 h
    have hPvac : ∀ (T : List Nat), i ∉ T →
        ∀ q, q ∈ T → OrdRel m P q → False := by
      intro T hiT q hq hRq
      have hqi : q = i := by
        have : some i = some q := by rw [← hRPi'.1.1, hRq.1]
        exact (Option.some_inj.mp this).symm
      subst hqi
      exact hiT hq
    cases l2 with
    | nil =>
        have hRi0 : OrdRel m i headerId ∧ True := by
          simpa [List.chain_cons] using hcil
        obtain ⟨hEp, hEn, hother⟩ :=
          removeEntry_ent_of_ne hb hRi0.1.1 hiP hPlen h0len hP0
        have hA : ∀ x, x ≠ P →
            ((m.removeEntry i).ent x).after = (m.ent x).after := by
          intro x hx
          by_cases hx0 : x = headerId
          · subst hx0; rw [hEn]
          · rw [hother x hx hx0]
        have hB : ∀ x, x ≠ headerId →
            ((m.removeEntry i).ent x).before = (m.ent x).before := by
          intro x hx
          by_cases hxP : x = P
          · subst hxP; rw [hEp]
          · rw [hother x hxP hx]
        simp only [List.append_nil]
        rw [List.append_assoc l1h [P] [headerId]]
        refine List.chain_split.mpr ⟨?_, ?_⟩
        · refine chain_transfer_frame hcl1h hA hB (hPvac _ hil1) ?_
          exact fun h => h0l1 h
        · exact List.Chain.cons ⟨by rw [hEp], by rw [hEn]⟩ List.Chain.nil
    | cons n2 t2 =>
        have hsplit : OrdRel m i n2 ∧
            List.Chain (OrdRel m) n2 (t2 ++ [headerId]) := by
          simpa [List.chain_cons] using hcil
        have hn2len : n2 < m.arena.length := hv n2 (by simp)
        have hn20 : n2 ≠ headerId := fun h => h0l2 (h ▸ by simp)
        have hPn2 : P ≠ n2 := fun h => hPl2 (by simp [h])
        obtain ⟨hEp, hEn, hother⟩ :=
          removeEntry_ent_of_ne hb hsplit.1.1 hiP hPlen hn2len hPn2
        have hA : ∀ x, x ≠ P →
            ((m.removeEntry i).ent x).after = (m.ent x).after := by
          intro x hx
          by_cases hxn : x = n2
          · subst hxn; rw [hEn]
          · rw [hother x hx hxn]
        have hB : ∀ x, x ≠ n2 →
            ((m.removeEntry i).ent x).before = (m.ent x).before := by
          intro x hx
          by_cases hxP : x = P
          · subst hxP; rw [hEp]
          · rw [hother x hxP hx]
        rw [List.append_assoc (l1h ++ [P]) (n2 :: t2) [headerId]]
        have hgoal :
            (l1h ++ [P]) ++ (n2 :: t2 ++ [headerId]) =
            (l1h ++ [P]) ++ n2 :: (t2 ++ [headerId]) := rfl
        rw [hgoal]
        refine List.chain_split.mpr ⟨?_, ?_⟩
        · rw [List.append_assoc l1h [P] [n2]]
          refine List.chain_split.mpr ⟨?_, ?_⟩
          · refine chain_transfer_frame hcl1h hA hB (hPvac _ hil1) ?_
            intro h
            exact List.disjoint_of_nodup_append hnd12 h (by simp)
          · exact List.Chain.cons ⟨by rw [hEp], by rw [hEn]⟩ List.Chain.nil
        · refine chain_transfer_frame hsplit.2 hA hB
            (hPvac _ ?_) ?_
          · intro h
            rcases List.mem_append.mp h with h | h
            · exact hil2 (by simp [h])
            · simp at h
              exact hi0 h
          · intro h
            rcases List.mem_append.mp h with h | h
            · exact (List.nodup_cons.mp
                (List.nodup_cons.mp (List.nodup_append.mp hnd').2.1).2).1 h
            · simp at h
              exact hn20 h

end LHMap

namespace LHMap

open LinkedHashMap

/-! ## Congruence helpers -/

theorem nextPath_congr {m m' : LinkedHashMap V} {c : List Nat}
    (h : ∀ x ∈ c, (m'.ent x).next = (m.ent x).next) :
    ∀ {h0 : Option Nat}, NextPath m h0 c → NextPath m' h0 c := by
  induction c with
  | nil => intro h0 hp; exact hp
  | cons x xs ih =>
      intro h0 hp
      have hp' : h0 = some x ∧ NextPath m (m.ent x).next xs := hp
      refine ⟨hp'.1, ?_⟩
      rw [h x (by simp)]
      exact ih (fun y hy => h y (by simp [hy])) hp'.2

theorem cycle_congr {m m' : LinkedHashMap V} {a : Nat} {l : List Nat}
    (h : ∀ x ∈ a :: l, m'.ent x = m.ent x) :
    List.Chain (OrdRel m) a l → List.Chain (OrdRel m') a l := by
  intro hc
  refine chain_transfer hc ?_
  intro p q hp hq hR
  exact ⟨by rw [h p hp]; exact hR.1,
         by rw [h q (List.mem_cons_of_mem a hq)]; exact hR.2⟩

/-- The invariant reads only `arena` and `buckets`. -/
theorem inv_congr {m m' : LinkedHashMap V} {ord : List Nat}
    {chains : List (List Nat)} (ha : m'.arena = m.arena)
    (hb : m'.buckets = m.buckets) (hI : Inv m ord chains) :
    Inv m' ord chains := by
  have hent : ∀ j, m'.ent j = m.ent j := by
    intro j
    unfold LinkedHashMap.ent
    rw [ha]
  have hlen : m'.arena.length = m.arena.length := by rw [ha]
  refine ⟨?_, ?_, hI.nodup, ?_, ?_, ?_, ?_, ?_, ?_, hI.sync, hI.chainsNodup, ?_⟩
  · rw [hlen]; exact hI.arenaPos
  · rw [hb]; exact hI.bucketsPos
  · intro x hx; rw [hlen]; exact hI.ordValid x hx
  · intro x hx; rw [hent]; exact hI.ordKeys x hx
  · exact cycle_congr (fun x _ => hent x) hI.cycle
  · rw [hb]; exact hI.chainsLen
  · intro b hble
    rw [hb] at hble ⊢
    exact nextPath_congr (fun x _ => by rw [hent]) (hI.chainsPath b hble)
  · intro b hble x hx
    rw [hb] at hble ⊢
    rw [hent]
    exact hI.chainsHash b hble x hx
  · have : (ord.map fun i => (m'.ent i).key) = ord.map fun i => (m.ent i).key :=
      List.map_congr_left (fun x _ => by rw [hent])
    rw [this]
    exact hI.keysNodup

/-- Replacing chain `idx` by itself with `a` prepended permutes the
flattened chains to `a` prepended. -/
theorem flatten_set_cons_perm :
    ∀ (cs : List (List Nat)) (idx : Nat) (a : Nat), idx < cs.length →
      List.Perm (cs.set idx (a :: cs.getD idx [])).flatten
        (a :: cs.flatten) := by
  intro cs
  induction cs with
  | nil => intro idx a h; simp at h
  | cons c rest ih =>
      intro idx a h
      cases idx with
      | zero => simp
      | succ n =>
          have hlt : n < rest.length := by simpa using h
          have hgd : (c :: rest).getD (n + 1) [] = rest.getD n [] := rfl
          rw [hgd]
          show List.Perm (c :: rest.set n (a :: rest.getD n [])).flatten
            (a :: (c :: rest).flatten)
          rw [List.flatten_cons, List.flatten_cons]
          exact ((ih n a hlt).append_left c).trans List.perm_middle

end LHMap

namespace LHMap

open LinkedHashMap

/-- `addEntry` as the `addBefore` of an explicitly extended state. -/
theorem addEntry_decomp (m : LinkedHashMap V) (k : String) (v : V)
    (idx : Nat) (c : Bool) :
    m.addEntry k v idx c =
      ({ m with
          arena := m.arena ++
            [(⟨some k, some v, m.buckets.getD idx none, none, none⟩ : Entry V)],
          buckets := m.buckets.set idx (some m.arena.length) } :
        LinkedHashMap V).addBefore m.arena.length headerId := rfl

/-- Inserting a fresh key via `addEntry` extends the invariant: the new
entry goes to the end of the order list and to the head of its bucket's
chain, and the observable content gains the pair at the end. -/
theorem addEntry_inv {m : LinkedHashMap V} {ord : List Nat}
    {chains : List (List Nat)} (hI : Inv m ord chains) (k : String) (v : V)
    (hfresh : ∀ i ∈ ord, (m.ent i).key ≠ some k) (c : Bool) :
    Inv (m.addEntry k v (m.hash k) c) (ord ++ [m.arena.length])
      (chains.set (m.hash k) (m.arena.length :: chains.getD (m.hash k) [])) ∧
    absList (m.addEntry k v (m.hash k) c) (ord ++ [m.arena.length]) =
      absList m ord ++ [(some k, some v)] := by
  have hidx : m.hash k < m.buckets.length := hash_lt m hI.bucketsPos k
  have hidxc : m.hash k < chains.length := by
    rw [hI.chainsLen]; exact hidx
  have h0ord : headerId ∉ ord := (List.nodup_cons.mp hI.nodup).1
  rw [addEntry_decomp]
  -- the extended (not yet linked) state
  generalize hM :
    ({ m with
        arena := m.arena ++
          [(⟨some k, some v, m.buckets.getD (m.hash k) none, none, none⟩ :
            Entry V)],
        buckets := m.buckets.set (m.hash k) (some m.arena.length) } :
      LinkedHashMap V) = M
  have hMa : M.arena = m.arena ++
      [(⟨some k, some v, m.buckets.getD (m.hash k) none, none, none⟩ :
        Entry V)] := by rw [← hM]
  have hMb : M.buckets = m.buckets.set (m.hash k) (some m.arena.length) := by
    rw [← hM]
  have hMlen : M.arena.length = m.arena.length + 1 := by
    rw [hMa]; simp
  have hMblen : M.buckets.length = m.buckets.length := by
    rw [hMb]; simp
  have hMent : ∀ j, j < m.arena.length → M.ent j = m.ent j :=
    fun j hj => ent_arena_append_lt hMa hj
  have hMnew : M.ent m.arena.length =
      ⟨some k, some v, m.buckets.getD (m.hash k) none, none, none⟩ :=
    ent_arena_append_self hMa
  have hvalid0 : ∀ x ∈ headerId :: ord, x < m.arena.length := by
    intro x hx
    rcases List.mem_cons.mp hx with h | h
    · subst h; simpa [headerId] using hI.arenaPos
    · exact hI.ordValid x h
  have hnewfresh : m.arena.length ∉ headerId :: ord := by
    intro h
    exact absurd (hvalid0 _ h) (by omega)
  have hvalid0' : ∀ x ∈ headerId :: (ord ++ [headerId]), x < m.arena.length := by
    intro x hx
    rcases List.mem_cons.mp hx with h | h
    · subst h; simpa [headerId] using hI.arenaPos
    · rcases List.mem_append.mp h with h | h
      · exact hI.ordValid x h
      · simp at h; subst h; simpa [headerId] using hI.arenaPos
  -- the cycle of M is the cycle of m
  have hMcycle : List.Chain (OrdRel M) headerId (ord ++ [headerId]) :=
    cycle_congr (fun x hx => hMent x (hvalid0' x hx)) hI.cycle
  have hMvalid : ∀ x ∈ headerId :: ord, x < M.arena.length := by
    intro x hx
    have := hvalid0 x hx
    omega
  -- after linking
  have hcycle' :
      List.Chain (OrdRel (M.addBefore m.arena.length headerId)) headerId
        ((ord ++ [m.arena.length]) ++ [headerId]) :=
    cycle_addBefore hMcycle hI.nodup hMvalid (by omega) hnewfresh
  have hkeeps := fun j => addBefore_keeps M m.arena.length headerId j
  have hABb : (M.addBefore m.arena.length headerId).buckets = M.buckets :=
    addBefore_buckets M _ _
  have hABlen : (M.addBefore m.arena.length headerId).arena.length =
      M.arena.length := addBefore_arena_length M _ _
  -- field values of the final state
  have hkey : ∀ j, j < m.arena.length →
      ((M.addBefore m.arena.length headerId).ent j).key = (m.ent j).key := by
    intro j hj
    rw [(hkeeps j).1, hMent j hj]
  have hval : ∀ j, j < m.arena.length →
      ((M.addBefore m.arena.length headerId).ent j).value = (m.ent j).value := by
    intro j hj
    rw [(hkeeps j).2.1, hMent j hj]
  have hnxt : ∀ j, j < m.arena.length →
      ((M.addBefore m.arena.length headerId).ent j).next = (m.ent j).next := by
    intro j hj
    rw [(hkeeps j).2.2, hMent j hj]
  have hkeynew : ((M.addBefore m.arena.length headerId).ent m.arena.length).key =
      some k := by
    rw [(hkeeps _).1, hMnew]
  have hvalnew :
      ((M.addBefore m.arena.length headerId).ent m.arena.length).value =
      some v := by
    rw [(hkeeps _).2.1, hMnew]
  have hnxtnew :
      ((M.addBefore m.arena.length headerId).ent m.arena.length).next =
      m.buckets.getD (m.hash k) none := by
    rw [(hkeeps _).2.2, hMnew]
  have hmemord : ∀ x ∈ ord, x < m.arena.length := hI.ordValid
  have hchainmem : ∀ x ∈ chains.getD (m.hash k) [], x ∈ ord :=
    fun x hx => chain_mem_ord hI hidx hx
  constructor
  · refine ⟨?_, ?_, ?_, ?_, ?_, hcycle', ?_, ?_, ?_, ?_, ?_, ?_⟩
    · rw [hABlen]; omega
    · rw [hABb, hMblen]; exact hI.bucketsPos
    · -- nodup of the extended cycle
      rw [show headerId :: (ord ++ [m.arena.length]) =
          (headerId :: ord) ++ [m.arena.length] from rfl]
      rw [List.nodup_append]
      exact ⟨hI.nodup, List.nodup_singleton _,
        fun x hx hx' => by
          simp at hx'
          subst hx'
          exact hnewfresh hx⟩
    · intro x hx
      rw [hABlen, hMlen]
      rcases List.mem_append.mp hx with h | h
      · have := hmemord x h; omega
      · simp at h; omega
    · intro x hx
      rcases List.mem_append.mp hx with h | h
      · rw [hkey x (hmemord x h)]; exact hI.ordKeys x h
      · simp at h; subst h; rw [hkeynew]; rfl
    · rw [hABb, hMb]; simp [hI.chainsLen]
    · -- chain paths
      intro b hble
      rw [hABb, hMblen] at hble
      rw [hABb, hMb]
      by_cases hb : b = m.hash k
      · subst hb
        have hhead : (m.buckets.set (m.hash k) (some m.arena.length)).getD
            (m.hash k) none = some m.arena.length := by
          simp [List.getD_eq_getElem?_getD, List.getElem?_set_self hidx]
        have hchain : (chains.set (m.hash k)
            (m.arena.length :: chains.getD (m.hash k) [])).getD (m.hash k) [] =
            m.arena.length :: chains.getD (m.hash k) [] := by
          simp [List.getD_eq_getElem?_getD, List.getElem?_set_self hidxc]
        rw [hhead, hchain]
        refine ⟨rfl, ?_⟩
        rw [hnxtnew]
        refine nextPath_congr ?_ (hI.chainsPath _ hidx)
        intro x hx
        exact hnxt x (hmemord x (hchainmem x hx))
      · have hhead : (m.buckets.set (m.hash k) (some m.arena.length)).getD
            b none = m.buckets.getD b none := by
          simp [List.getD_eq_getElem?_getD,
            List.getElem?_set_ne (fun h => hb h.symm)]
        have hchain : (chains.set (m.hash k)
            (m.arena.length :: chains.getD (m.hash k) [])).getD b [] =
            chains.getD b [] := by
          simp [List.getD_eq_getElem?_getD,
            List.getElem?_set_ne (fun h => hb h.symm)]
        rw [hhead, hchain]
        refine nextPath_congr ?_ (hI.chainsPath b hble)
        intro x hx
        exact hnxt x (hmemord x (chain_mem_ord hI hble hx))
    · -- hash correctness
      intro b hble x hx
      rw [hABb, hMblen] at hble
      rw [hABb, hMblen]
      by_cases hb : b = m.hash k
      · subst hb
        have hchain : (chains.set (m.hash k)
            (m.arena.length :: chains.getD (m.hash k) [])).getD (m.hash k) [] =
            m.arena.length :: chains.getD (m.hash k) [] := by
          simp [List.getD_eq_getElem?_getD, List.getElem?_set_self hidxc]
        rw [hchain] at hx
        rcases List.mem_cons.mp hx with h | h
        · subst h
          rw [hkeynew]
          rfl
        · rw [hkey x (hmemord x (hchainmem x h))]
          exact hI.chainsHash _ hidx x h
      · have hchain : (chains.set (m.hash k)
            (m.arena.length :: chains.getD (m.hash k) [])).getD b [] =
            chains.getD b [] := by
          simp [List.getD_eq_getElem?_getD,
            List.getElem?_set_ne (fun h => hb h.symm)]
        rw [hchain] at hx
        rw [hkey x (hmemord x (chain_mem_ord hI hble hx))]
        exact hI.chainsHash b hble x hx
    · -- sync
      intro x
      have hperm := flatten_set_cons_perm chains (m.hash k) m.arena.length hidxc
      rw [hperm.mem_iff]
      simp only [List.mem_cons, List.mem_append, List.mem_singleton]
      rw [hI.sync x]
      tauto
    · -- flattened chains stay nodup
      have hperm := flatten_set_cons_perm chains (m.hash k) m.arena.length hidxc
      refine (List.Perm.nodup_iff hperm).mpr ?_
      refine List.nodup_cons.mpr ⟨?_, hI.chainsNodup⟩
      intro h
      have : m.arena.length ∈ ord := (hI.sync _).mp h
      exact absurd (hmemord _ this) (by omega)
    · -- keys stay nodup
      have hmap : ((ord ++ [m.arena.length]).map
          fun i => ((M.addBefore m.arena.length headerId).ent i).key) =
          (ord.map fun i => (m.ent i).key) ++ [some k] := by
        rw [List.map_append]
        congr 1
        · exact List.map_congr_left (fun x hx => hkey x (hmemord x hx))
        · simp [hkeynew]
      rw [hmap, List.nodup_append]
      refine ⟨hI.keysNodup, List.nodup_singleton _, ?_⟩
      intro x hx hx'
      simp at hx'
      subst hx'
      rcases List.mem_map.mp hx with ⟨j, hj, hkj⟩
      exact hfresh j hj hkj
  · -- the observable content
    unfold absList
    rw [List.map_append]
    congr 1
    · exact List.map_congr_left
        (fun x hx => by rw [hkey x (hmemord x hx), hval x (hmemord x hx)])
    · simp [hkeynew, hvalnew]

end LHMap

namespace LHMap

open LinkedHashMap

theorem visits_congr {m m' : LinkedHashMap V} :
    ∀ {todo : List Nat} {e : Nat},
      (∀ x ∈ todo, (m'.ent x).after = (m.ent x).after) →
      Visits m e todo → Visits m' e todo := by
  intro todo
  induction todo with
  | nil => intro e _ h; exact h
  | cons x xs ih =>
      intro e haft h
      have h' : e = x ∧ x ≠ headerId ∧
          Visits m ((m.ent x).after.getD headerId) xs := h
      refine ⟨h'.1, h'.2.1, ?_⟩
      rw [haft x (by simp)]
      exact ih (fun y hy => haft y (by simp [hy])) h'.2.2

theorem visits_of_cycle {m : LinkedHashMap V} :
    ∀ (l : List Nat) (e : Nat),
      List.Chain (OrdRel m) e (l ++ [headerId]) →
      (∀ x ∈ l, x ≠ headerId) →
      Visits m ((m.ent e).after.getD headerId) l := by
  intro l
  induction l with
  | nil =>
      intro e hc _
      have hR : OrdRel m e headerId ∧ True := by
        simpa [List.chain_cons] using hc
      rw [hR.1.1]
      rfl
  | cons x xs ih =>
      intro e hc hne
      have hc' : OrdRel m e x ∧ List.Chain (OrdRel m) x (xs ++ [headerId]) := by
        simpa [List.chain_cons] using hc
      rw [hc'.1.1]
      exact ⟨rfl, hne x (by simp), ih x hc'.2 (fun y hy => hne y (by simp [hy]))⟩

@[simp] theorem flatten_replicate_nil (n : Nat) :
    (List.replicate n ([] : List Nat)).flatten = ([] : List Nat) := by
  induction n with
  | zero => rfl
  | succ k ih => simp [List.replicate_succ, ih]

theorem rehashLoop_succ (m : LinkedHashMap V) (e f : Nat)
    (he : e ≠ headerId) :
    m.rehashLoop e (f + 1) =
      (rehashStep m e).rehashLoop
        (((rehashStep m e).ent e).after.getD headerId) f := by
  simp only [LinkedHashMap.rehashLoop, if_neg he]
  rfl

theorem rehashStep_facts (mc : LinkedHashMap V) (x : Nat)
    (hx : x < mc.arena.length) (hpos : 0 < mc.buckets.length) :
    (rehashStep mc x).buckets.length = mc.buckets.length ∧
    (rehashStep mc x).arena.length = mc.arena.length ∧
    ((rehashStep mc x).ent x).next =
      mc.buckets.getD (mc.hash ((mc.ent x).key.getD "")) none ∧
    (∀ j, j ≠ x → ((rehashStep mc x).ent j).next = (mc.ent j).next) ∧
    (∀ j, ((rehashStep mc x).ent j).key = (mc.ent j).key ∧
      ((rehashStep mc x).ent j).value = (mc.ent j).value ∧
      ((rehashStep mc x).ent j).before = (mc.ent j).before ∧
      ((rehashStep mc x).ent j).after = (mc.ent j).after) ∧
    (rehashStep mc x).buckets.getD
      (mc.hash ((mc.ent x).key.getD "")) none = some x ∧
    (∀ b, b ≠ mc.hash ((mc.ent x).key.getD "") →
      (rehashStep mc x).buckets.getD b none = mc.buckets.getD b none) := by
  have hidx : mc.hash ((mc.ent x).key.getD "") < mc.buckets.length :=
    hash_lt mc hpos _
  have hentS : ∀ j, (rehashStep mc x).ent j =
      (mc.updEnt x fun en =>
        { en with next := (mc.buckets.getD (mc.hash ((mc.ent x).key.getD "")) none) }).ent j :=
    fun j => rfl
  refine ⟨by simp [rehashStep], by simp [rehashStep], ?_, ?_, ?_, ?_, ?_⟩
  · rw [hentS, ent_updEnt_self hx]
  · intro j hj
    rw [hentS, ent_updEnt_ne hj]
  · intro j
    rw [hentS]
    exact ⟨ent_updNext_key mc x _ j, ent_updNext_value mc x _ j,
      ent_updNext_before mc x _ j, ent_updNext_after mc x _ j⟩
  · show ((mc.updEnt x _).buckets.set _ (some x)).getD _ none = some x
    simp [List.getD_eq_getElem?_getD,
      List.getElem?_set_self (by simpa using hidx)]
  · intro b hb
    show ((mc.updEnt x _).buckets.set _ (some x)).getD b none = _
    simp [List.getD_eq_getElem?_getD,
      List.getElem?_set_ne (fun h => hb h.symm)]

theorem rehashLoop_spec :
    ∀ (todo : List Nat) (mc : LinkedHashMap V) (e fuel : Nat)
      (done : List Nat) (acc : List (List Nat)),
      Visits mc e todo →
      0 < mc.buckets.length →
      acc.length = mc.buckets.length →
      (∀ b, b < mc.buckets.length →
        NextPath mc (mc.buckets.getD b none) (acc.getD b [])) →
      (∀ b, b < mc.buckets.length → ∀ i ∈ acc.getD b [],
        hashIdx mc.buckets.length (((mc.ent i).key).getD "") = b) →
      (∀ i ∈ acc.flatten, i ∈ done) →
      (∀ i ∈ done, i ∈ acc.flatten) →
      acc.flatten.Nodup →
      todo.Nodup →
      (∀ i ∈ todo, i ∉ done) →
      (∀ i ∈ todo, i ≠ headerId) →
      (∀ i ∈ todo, i < mc.arena.length) →
      todo.length ≤ fuel →
      ∃ cs : List (List Nat),
        cs.length = (mc.rehashLoop e fuel).buckets.length ∧
        (∀ b, b < (mc.rehashLoop e fuel).buckets.length →
          NextPath (mc.rehashLoop e fuel)
            ((mc.rehashLoop e fuel).buckets.getD b none)
            (cs.getD b [])) ∧
        (∀ b, b < (mc.rehashLoop e fuel).buckets.length →
          ∀ i ∈ cs.getD b [],
            hashIdx (mc.rehashLoop e fuel).buckets.length
              ((((mc.rehashLoop e fuel).ent i).key).getD "") = b) ∧
        (∀ i, i ∈ cs.flatten ↔ i ∈ done ++ todo) ∧
        cs.flatten.Nodup := by
  intro todo
  induction todo with
  | nil =>
      intro mc e fuel done acc hw hpos hlen hpath hhash hsub hcover hnd _ _ _ _ _
      have he : e = headerId := hw
      subst he
      have hloop : mc.rehashLoop headerId fuel = mc := by
        cases fuel with
        | zero => rfl
        | succ n => simp [LinkedHashMap.rehashLoop]
      rw [hloop]
      refine ⟨acc, hlen, hpath, hhash, ?_, hnd⟩
      intro i
      simp only [List.append_nil]
      exact ⟨fun h => hsub i h, fun h => hcover i h⟩
  | cons x xs ih =>
      intro mc e fuel done acc hw hpos hlen hpath hhash hsub hcover hnd
        htodond hdisj htodo0 htodov hfuel
      have hw' : e = x ∧ x ≠ headerId ∧
          Visits mc ((mc.ent x).after.getD headerId) xs := hw
      obtain ⟨he, hx0, hwxs⟩ := hw'
      subst he
      cases fuel with
      | zero => exact absurd hfuel (by simp)
      | succ f =>
          have hxlen : e < mc.arena.length := htodov e (by simp)
          have hxdone : e ∉ done := hdisj e (by simp)
          obtain ⟨hSblen, hSalen, hSnextx, hSnexto, hSkeeps, hShead, hSheado⟩ :=
            rehashStep_facts mc e hxlen hpos
          have hidx : mc.hash ((mc.ent e).key.getD "") < mc.buckets.length :=
            hash_lt mc hpos _
          have hidxa : mc.hash ((mc.ent e).key.getD "") < acc.length := by
            rw [hlen]; exact hidx
          rw [rehashLoop_succ mc e f hx0]
          have he' : ((rehashStep mc e).ent e).after.getD headerId =
              (mc.ent e).after.getD headerId := by
            rw [(hSkeeps e).2.2.2]
          rw [he']
          have hchainsub : ∀ i ∈ acc.getD
              (mc.hash ((mc.ent e).key.getD "")) [], i ∈ done := by
            intro i hi
            refine hsub i ?_
            refine List.mem_flatten.mpr ⟨acc.getD _ [], ?_, hi⟩
            rw [List.getD_eq_getElem?_getD, List.getElem?_eq_getElem hidxa]
            exact List.getElem_mem hidxa
          refine ih (rehashStep mc e) ((mc.ent e).after.getD headerId) f
            (done ++ [e])
            (acc.set (mc.hash ((mc.ent e).key.getD ""))
              (e :: acc.getD (mc.hash ((mc.ent e).key.getD "")) []))
            ?_ ?_ ?_ ?_ ?_ ?_ ?_ ?_ ?_ ?_ ?_ ?_ ?_ |>.imp ?_
          · exact visits_congr (fun y _ => (hSkeeps y).2.2.2) hwxs
          · rw [hSblen]; exact hpos
          · rw [hSblen]; simp [hlen]
          · intro b hble
            rw [hSblen] at hble
            by_cases hb : b = mc.hash ((mc.ent e).key.getD "")
            · subst hb
              rw [hShead]
              have hchain : (acc.set (mc.hash ((mc.ent e).key.getD ""))
                  (e :: acc.getD (mc.hash ((mc.ent e).key.getD "")) [])).getD
                  (mc.hash ((mc.ent e).key.getD "")) [] =
                  e :: acc.getD (mc.hash ((mc.ent e).key.getD "")) [] := by
                simp [List.getD_eq_getElem?_getD,
                  List.getElem?_set_self hidxa]
              rw [hchain]
              refine ⟨rfl, ?_⟩
              rw [hSnextx]
              refine nextPath_congr ?_ (hpath _ hidx)
              intro y hy
              exact hSnexto y (fun h => hxdone (h ▸ hchainsub y hy))
            · rw [hSheado b hb]
              have hchain : (acc.set (mc.hash ((mc.ent e).key.getD ""))
                  (e :: acc.getD (mc.hash ((mc.ent e).key.getD "")) [])).getD
                  b [] = acc.getD b [] := by
                simp [List.getD_eq_getElem?_getD,
                  List.getElem?_set_ne (fun h => hb h.symm)]
              rw [hchain]
              refine nextPath_congr ?_ (hpath b hble)
              intro y hy
              refine hSnexto y ?_
              intro h
              subst h
              refine hxdone (hsub y ?_)
              refine List.mem_flatten.mpr ⟨acc.getD b [], ?_, hy⟩
              have hba : b < acc.length := by rw [hlen]; exact hble
              rw [List.getD_eq_getElem?_getD, List.getElem?_eq_getElem hba]
              exact List.getElem_mem hba
          · intro b hble i hi
            rw [hSblen] at hble ⊢
            by_cases hb : b = mc.hash ((mc.ent e).key.getD "")
            · subst hb
              have hchain : (acc.set (mc.hash ((mc.ent e).key.getD ""))
                  (e :: acc.getD (mc.hash ((mc.ent e).key.getD "")) [])).getD
                  (mc.hash ((mc.ent e).key.getD "")) [] =
                  e :: acc.getD (mc.hash ((mc.ent e).key.getD "")) [] := by
                simp [List.getD_eq_getElem?_getD,
                  List.getElem?_set_self hidxa]
              rw [hchain] at hi
              rcases List.mem_cons.mp hi with h | h
              · subst h
                rw [(hSkeeps i).1]
                rfl
              · rw [(hSkeeps i).1]
                exact hhash _ hidx i h
            · have hchain : (acc.set (mc.hash ((mc.ent e).key.getD ""))
                  (e :: acc.getD (mc.hash ((mc.ent e).key.getD "")) [])).getD
                  b [] = acc.getD b [] := by
                simp [List.getD_eq_getElem?_getD,
                  List.getElem?_set_ne (fun h => hb h.symm)]
              rw [hchain] at hi
              rw [(hSkeeps i).1]
              exact hhash b hble i hi
          · intro i hi
            have hperm := flatten_set_cons_perm acc
              (mc.hash ((mc.ent e).key.getD "")) e hidxa
            rw [hperm.mem_iff] at hi
            rcases List.mem_cons.mp hi with h | h
            · simp [h]
            · simp [hsub i h]
          · intro i hi
            have hperm := flatten_set_cons_perm acc
              (mc.hash ((mc.ent e).key.getD "")) e hidxa
            rw [hperm.mem_iff]
            rcases List.mem_append.mp hi with h | h
            · simp [hcover i h]
            · simp at h
              simp [h]
          · have hperm := flatten_set_cons_perm acc
              (mc.hash ((mc.ent e).key.getD "")) e hidxa
            refine (List.Perm.nodup_iff hperm).mpr ?_
            exact List.nodup_cons.mpr ⟨fun h => hxdone (hsub e h), hnd⟩
          · exact (List.nodup_cons.mp htodond).2
          · intro i hi hmem
            rcases List.mem_append.mp hmem with h | h
            · exact hdisj i (by simp [hi]) h
            · simp at h
              subst h
              exact (List.nodup_cons.mp htodond).1 hi
          · intro i hi
            exact htodo0 i (by simp [hi])
          · intro i hi
            rw [hSalen]
            exact htodov i (by simp [hi])
          · simpa using Nat.le_of_succ_le_succ hfuel
          · intro cs hcs
            refine ⟨hcs.1, hcs.2.1, hcs.2.2.1, ?_, hcs.2.2.2.2⟩
            intro i
            rw [hcs.2.2.2.1 i]
            simp [List.mem_append, List.mem_cons]

end LHMap

namespace LHMap

open LinkedHashMap

theorem getD_replicate {α : Type} (a : α) (n b : Nat) :
    (List.replicate n a).getD b a = a := by
  rcases lt_or_ge b n with h | h
  · simp [List.getD_eq_getElem?_getD, List.getElem?_replicate, h]
  · simp [List.getD_eq_getElem?_getD, List.getElem?_replicate,
      Nat.not_lt_of_ge h]

theorem inv_ord_length_le {m : LinkedHashMap V} {ord : List Nat}
    {chains : List (List Nat)} (hI : Inv m ord chains) :
    ord.length ≤ m.arena.length := by
  have hb : ∀ x ∈ headerId :: ord, x < m.arena.length := by
    intro x hx
    rcases List.mem_cons.mp hx with h | h
    · subst h; simpa [headerId] using hI.arenaPos
    · exact hI.ordValid x h
  have := nodup_length_le hI.nodup hb
  simp only [List.length_cons] at this
  omega

theorem rehash_decomp (m : LinkedHashMap V) :
    m.rehash =
      ({ m with
          threshold :=
            jsFloorMul ((m.buckets.length * 2 + 1 : Nat) : Int) m.loadFactor,
          buckets := List.replicate (m.buckets.length * 2 + 1) none } :
        LinkedHashMap V).rehashLoop
        ((({ m with
            threshold :=
              jsFloorMul ((m.buckets.length * 2 + 1 : Nat) : Int) m.loadFactor,
            buckets := List.replicate (m.buckets.length * 2 + 1) none } :
          LinkedHashMap V).ent headerId).after.getD headerId)
        m.arena.length := rfl

/-- `rehash` rebuilds the chains while keeping the invariant: the order
list (and all key/value content) is untouched. -/
theorem rehash_inv {m : LinkedHashMap V} {ord : List Nat}
    {chains : List (List Nat)} (hI : Inv m ord chains) :
    ∃ chains' : List (List Nat), Inv (m.rehash) ord chains' := by
  have h0ord : headerId ∉ ord := (List.nodup_cons.mp hI.nodup).1
  have hkeeps := rehash_keeps m
  have halen := rehash_arena_length m
  have hblen := rehash_buckets_length m
  -- the rewired state at loop entry
  rw [rehash_decomp] at hkeeps halen hblen ⊢
  generalize hM :
    ({ m with
        threshold :=
          jsFloorMul ((m.buckets.length * 2 + 1 : Nat) : Int) m.loadFactor,
        buckets := List.replicate (m.buckets.length * 2 + 1) none } :
      LinkedHashMap V) = M1 at hkeeps halen hblen ⊢
  have hM1a : M1.arena = m.arena := by rw [← hM]
  have hM1b : M1.buckets = List.replicate (m.buckets.length * 2 + 1) none := by
    rw [← hM]
  have hM1ent : ∀ j, M1.ent j = m.ent j := by
    intro j
    unfold LinkedHashMap.ent
    rw [hM1a]
  have hM1blen : M1.buckets.length = m.buckets.length * 2 + 1 := by
    rw [hM1b]; simp
  have hM1cycle : List.Chain (OrdRel M1) headerId (ord ++ [headerId]) :=
    cycle_congr (fun x _ => hM1ent x) hI.cycle
  obtain ⟨cs, hcs1, hcs2, hcs3, hcs4, hcs5⟩ :=
    rehashLoop_spec ord M1 ((M1.ent headerId).after.getD headerId)
      m.arena.length [] (List.replicate (m.buckets.length * 2 + 1) [])
      (visits_of_cycle ord headerId hM1cycle
        (fun x hx hx0 => h0ord (hx0 ▸ hx)))
      (by rw [hM1blen]; omega)
      (by rw [hM1blen]; simp)
      (by
        intro b hble
        rw [hM1b]
        rw [getD_replicate_none, getD_replicate]
        rfl)
      (by
        intro b hble i hi
        rw [getD_replicate] at hi
        simp at hi)
      (by simp)
      (by simp)
      (by simp)
      ((List.nodup_cons.mp hI.nodup).2)
      (by simp)
      (fun i hi hx0 => h0ord (hx0 ▸ hi))
      (by
        intro i hi
        rw [hM1a]
        exact hI.ordValid i hi)
      (inv_ord_length_le hI)
  refine ⟨cs, ?_⟩
  have hfin : ∀ j,
      ((M1.rehashLoop ((M1.ent headerId).after.getD headerId)
        m.arena.length).ent j).key = (m.ent j).key ∧
      ((M1.rehashLoop ((M1.ent headerId).after.getD headerId)
        m.arena.length).ent j).value = (m.ent j).value ∧
      ((M1.rehashLoop ((M1.ent headerId).after.getD headerId)
        m.arena.length).ent j).before = (m.ent j).before ∧
      ((M1.rehashLoop ((M1.ent headerId).after.getD headerId)
        m.arena.length).ent j).after = (m.ent j).after := hkeeps
  refine ⟨?_, ?_, hI.nodup, ?_, ?_, ?_, hcs1, hcs2, hcs3, ?_, hcs5, ?_⟩
  · rw [halen]; exact hI.arenaPos
  · rw [hblen]; omega
  · intro x hx
    rw [halen]
    exact hI.ordValid x hx
  · intro x hx
    rw [(hfin x).1]
    exact hI.ordKeys x hx
  · refine chain_transfer hI.cycle ?_
    intro p q _ _ hR
    exact ⟨by rw [(hfin p).2.2.2]; exact hR.1,
           by rw [(hfin q).2.2.1]; exact hR.2⟩
  · intro i
    rw [hcs4 i]
    simp
  · have : (ord.map fun i =>
        ((M1.rehashLoop ((M1.ent headerId).after.getD headerId)
          m.arena.length).ent i).key) =
        ord.map fun i => (m.ent i).key :=
      List.map_congr_left (fun x _ => (hfin x).1)
    rw [this]
    exact hI.keysNodup

/-- `rehash` does not change the observable order-list content. -/
theorem absList_rehash (m : LinkedHashMap V) (ord : List Nat) :
    absList (m.rehash) ord = absList m ord := by
  unfold absList
  refine List.map_congr_left ?_
  intro x _
  rw [(rehash_keeps m x).1, (rehash_keeps m x).2.1]

end LHMap

namespace LHMap

open LinkedHashMap

/-- `set` on an absent key takes the insert path and appends the pair to
the observable content, preserving the invariant (rehashing on the way if
the threshold is crossed). -/
theorem set_fresh {m : LinkedHashMap V} {ord : List Nat}
    {chains : List (List Nat)} (hI : Inv m ord chains) (k : String) (v : V)
    (hk : ∀ i ∈ ord, (m.ent i).key ≠ some k) :
    ∃ (ord' : List Nat) (chains' : List (List Nat)),
      Inv (m.set k v) ord' chains' ∧
      absList (m.set k v) ord' = absList m ord ++ [(some k, some v)] := by
  have hfind : m.findEntry k m.arena.length
      (m.buckets.getD (m.hash k) none) = none := by
    rw [inv_findEntry hI k]
    rw [List.find?_eq_none]
    intro j hj hpj
    exact hk j (chain_mem_ord hI (hash_lt m hI.bucketsPos k) hj)
      (by simpa using hpj)
  unfold LinkedHashMap.set
  dsimp only
  rw [hfind]
  by_cases hgt : m.size + 1 > m.threshold
  · rw [if_pos hgt]
    -- the size/modCount bump keeps the invariant
    have hI1 : Inv ({ m with modCount := m.modCount + 1, size := m.size + 1 } : LinkedHashMap V) ord chains :=
      inv_congr
        (show ({ m with modCount := m.modCount + 1, size := m.size + 1 } : LinkedHashMap V).arena = m.arena from rfl)
        (show ({ m with modCount := m.modCount + 1, size := m.size + 1 } : LinkedHashMap V).buckets = m.buckets from rfl)
        hI
    obtain ⟨chains2, hI2⟩ := rehash_inv hI1
    have hk2 : ∀ i ∈ ord,
        (({ m with modCount := m.modCount + 1, size := m.size + 1 } : LinkedHashMap V).rehash.ent i).key ≠
          some k := by
      intro i hi
      rw [(rehash_keeps _ i).1]
      exact hk i hi
    obtain ⟨hI3, habs⟩ := addEntry_inv hI2 k v hk2 true
    refine ⟨_, _, hI3, ?_⟩
    rw [habs]
    congr 1
    rw [absList_rehash]
    rfl
  · rw [if_neg hgt]
    have hI1 : Inv ({ m with modCount := m.modCount + 1, size := m.size + 1 } : LinkedHashMap V) ord chains :=
      inv_congr
        (show ({ m with modCount := m.modCount + 1, size := m.size + 1 } : LinkedHashMap V).arena = m.arena from rfl)
        (show ({ m with modCount := m.modCount + 1, size := m.size + 1 } : LinkedHashMap V).buckets = m.buckets from rfl)
        hI
    have hk1 : ∀ i ∈ ord,
        (({ m with modCount := m.modCount + 1, size := m.size + 1 } : LinkedHashMap V).ent i).key ≠ some k :=
      fun i hi => hk i hi
    obtain ⟨hI3, habs⟩ := addEntry_inv hI1 k v hk1 true
    exact ⟨_, _, hI3, habs⟩

/-- `set`'s effect on `size` for an absent key: exactly one increment. -/
theorem set_fresh_size {m : LinkedHashMap V} {ord : List Nat}
    {chains : List (List Nat)} (hI : Inv m ord chains) (k : String) (v : V)
    (hk : ∀ i ∈ ord, (m.ent i).key ≠ some k) :
    (m.set k v).size = m.size + 1 := by
  have hfind : m.findEntry k m.arena.length
      (m.buckets.getD (m.hash k) none) = none := by
    rw [inv_findEntry hI k]
    rw [List.find?_eq_none]
    intro j hj hpj
    exact hk j (chain_mem_ord hI (hash_lt m hI.bucketsPos k) hj)
      (by simpa using hpj)
  unfold LinkedHashMap.set
  dsimp only
  rw [hfind]
  by_cases hgt : m.size + 1 > m.threshold
  · rw [if_pos hgt, addEntry_size, rehash_size]
  · rw [if_neg hgt, addEntry_size]

end LHMap

namespace LHMap

open LinkedHashMap

theorem inv_mkNoEntries (cap : Nat) (hc : 0 < cap) (lf : Rat) :
    Inv (mkNoEntries (V := V) cap lf) [] (List.replicate cap []) := by
  refine ⟨?_, ?_, ?_, ?_, ?_, ?_, ?_, ?_, ?_, ?_, ?_, ?_⟩
  · show 0 < (mkNoEntries (V := V) cap lf).arena.length
    simp [mkNoEntries]
  · simpa [mkNoEntries] using hc
  · simp
  · intro i hi; simp at hi
  · intro i hi; simp at hi
  · exact List.Chain.cons ⟨rfl, rfl⟩ List.Chain.nil
  · simp [mkNoEntries]
  · intro b hble
    have h1 : (mkNoEntries (V := V) cap lf).buckets.getD b none = none := by
      show (List.replicate cap (none : Option Nat)).getD b none = none
      exact getD_replicate_none _ _
    have h2 : (List.replicate cap ([] : List Nat)).getD b [] = [] :=
      getD_replicate _ _ _
    rw [h1, h2]
    rfl
  · intro b hble i hi
    rw [getD_replicate] at hi
    simp at hi
  · intro i
    simp
  · simp
  · simp

theorem putAll_append (m : LinkedHashMap V) (l1 l2 : List (String × V)) :
    m.putAll (l1 ++ l2) = (m.putAll l1).putAll l2 := by
  unfold LinkedHashMap.putAll
  rw [List.foldl_append]

theorem fromOps_append_singleton (l : List (String × V)) (p : String × V) :
    fromOps (l ++ [p]) = (fromOps l).set p.1 p.2 := by
  unfold fromOps
  rw [putAll_append]
  rfl

/-- The fold of distinct-key `set`s builds a well-formed map whose content
lists the pairs in call order. -/
theorem fromOps_spec (ops : List (String × V))
    (hnd : (ops.map Prod.fst).Nodup) :
    ∃ (ord : List Nat) (chains : List (List Nat)),
      Inv (fromOps ops) ord chains ∧
      absList (fromOps ops) ord = ops.map (fun p => (some p.1, some p.2)) := by
  induction ops using List.reverseRecOn with
  | nil =>
      refine ⟨[], List.replicate 11 [], inv_mkNoEntries 11 (by omega) lf34, rfl⟩
  | append_singleton l p ih =>
      have hnd' : (l.map Prod.fst).Nodup := by
        rw [List.map_append] at hnd
        exact (List.nodup_append.mp hnd).1
      have hpf : p.1 ∉ l.map Prod.fst := by
        rw [List.map_append] at hnd
        intro h
        exact (List.nodup_append.mp hnd).2.2 h (by simp)
      obtain ⟨ord, chains, hI, habs⟩ := ih hnd'
      have hkeys : ord.map (fun i => ((fromOps l).ent i).key) =
          l.map (fun p => some p.1) := by
        have := congrArg (List.map Prod.fst) habs
        rw [absList] at this
        rw [List.map_map, List.map_map] at this
        exact this
      have hfresh : ∀ i ∈ ord, ((fromOps l).ent i).key ≠ some p.1 := by
        intro i hi hkey
        have : some p.1 ∈ ord.map (fun i => ((fromOps l).ent i).key) :=
          List.mem_map.mpr ⟨i, hi, hkey⟩
        rw [hkeys] at this
        rcases List.mem_map.mp this with ⟨q, hq, hqe⟩
        exact hpf (List.mem_map.mpr ⟨q, hq, Option.some_inj.mp hqe⟩)
      obtain ⟨ord', chains', hI', habs'⟩ := set_fresh hI p.1 p.2 hfresh
      rw [← fromOps_append_singleton] at hI' habs'
      refine ⟨ord', chains', hI', ?_⟩
      rw [habs', habs, List.map_append]
      rfl

theorem keysList_eq_map (m : LinkedHashMap V) :
    m.keysList = m.entriesList.map Prod.fst := by
  unfold LinkedHashMap.keysList LinkedHashMap.entriesList
  rw [List.map_map]
  rfl

theorem valuesList_eq_map (m : LinkedHashMap V) :
    m.valuesList = m.entriesList.map Prod.snd := by
  unfold LinkedHashMap.valuesList LinkedHashMap.entriesList
  rw [List.map_map]
  rfl

/-! ## Claim C1 -/

/-- C1: starting from an empty map, a sequence of `set` calls with
pairwise-distinct keys yields a map whose `entries()` / `keys()` /
`values()` iteration lists exactly those pairs (keys, values) in the
order the `set` calls were made. -/
theorem C1_iteration_order (ops : List (String × V))
    (hnd : (ops.map Prod.fst).Nodup) :
    (fromOps ops).entriesList = ops.map (fun p => (some p.1, some p.2)) ∧
    (fromOps ops).keysList = ops.map (fun p => some p.1) ∧
    (fromOps ops).valuesList = ops.map (fun p => some p.2) := by
  obtain ⟨ord, chains, hI, habs⟩ := fromOps_spec ops hnd
  have hE : (fromOps ops).entriesList =
      ops.map (fun p => (some p.1, some p.2)) :=
    (entriesList_eq hI).trans habs
  refine ⟨hE, ?_, ?_⟩
  · rw [keysList_eq_map, hE, List.map_map]
    rfl
  · rw [valuesList_eq_map, hE, List.map_map]
    rfl

/-- Witness for C1 on a concrete three-element insertion sequence. -/
theorem C1_witness :
    (fromOps [("a", 1), ("b", 2), ("c", 3)] : LinkedHashMap Nat).entriesList =
      [(some "a", some 1), (some "b", some 2), (some "c", some 3)] :=
  (C1_iteration_order [("a", 1), ("b", 2), ("c", 3)] (by decide)).1

end LHMap

namespace LHMap

open LinkedHashMap

theorem assocGet_append_ne (k k' : String) (v : Option V)
    (l : List (Option String × Option V)) (h : k' ≠ k) :
    assocGet k' (l ++ [(some k, v)]) = assocGet k' l := by
  unfold assocGet
  rw [List.find?_append]
  cases hf : l.find? (fun p => decide (p.1 = some k')) with
  | some p => rfl
  | none =>
      have : ([((some k : Option String), v)].find?
          (fun p => decide (p.1 = some k'))) = none := by
        rw [List.find?_eq_none]
        intro x hx
        simp at hx
        subst hx
        simp
        intro hc
        exact absurd hc.symm h
      rw [this]
      rfl

theorem assocGet_append_self (k : String) (v : Option V)
    (l : List (Option String × Option V))
    (hnone : l.find? (fun p => decide (p.1 = some k)) = none) :
    assocGet k (l ++ [(some k, v)]) = v := by
  unfold assocGet
  rw [List.find?_append, hnone]
  simp

/-! ## Claim C4 -/

/-- C4: an insertion that triggers a resize preserves every previously
retrievable association and appends the new pair at the end of the
iteration order — the relative order of pre-existing entries (the order
list) is untouched. -/
theorem C4_resize_preserves {m : LinkedHashMap V} (hswf : SWF m)
    (k : String) (v : V) (habs : m.has k = false)
    (htrig : m.size + 1 > m.threshold) :
    (m.set k v).entriesList = m.entriesList ++ [(some k, some v)] ∧
    (∀ k', k' ≠ k → (m.set k v).get k' = m.get k') ∧
    (m.set k v).get k = some v := by
  obtain ⟨ord, chains, hI⟩ := hswf
  have hfresh : ∀ i ∈ ord, (m.ent i).key ≠ some k := by
    intro i hi hkey
    have : m.has k = true := (has_iff hI k).mpr ⟨i, hi, hkey⟩
    rw [habs] at this
    exact absurd this (by simp)
  obtain ⟨ord', chains', hI', habs'⟩ := set_fresh hI k v hfresh
  have hfindnone : (absList m ord).find?
      (fun p => decide (p.1 = some k)) = none := by
    rw [List.find?_eq_none]
    intro x hx hpx
    rcases List.mem_map.mp hx with ⟨i, hi, rfl⟩
    exact hfresh i hi (by simpa using hpx)
  refine ⟨?_, ?_, ?_⟩
  · rw [entriesList_eq hI', habs', entriesList_eq hI]
  · intro k' hk'
    rw [get_eq_assoc hI' k', habs', assocGet_append_ne k k' (some v) _ hk',
      ← get_eq_assoc hI k']
  · rw [get_eq_assoc hI' k, habs', assocGet_append_self k (some v) _ hfindnone]

/-- Witness for C4: the ninth insertion at the default capacity crosses
the threshold `8` and rehashes. -/
theorem C4_witness :
    ((fromOps [("a", 1), ("b", 2), ("c", 3), ("d", 4), ("e", 5), ("f", 6),
        ("g", 7), ("h", 8)] : LinkedHashMap Nat).set "i" 9).entriesList =
      (fromOps [("a", 1), ("b", 2), ("c", 3), ("d", 4), ("e", 5), ("f", 6),
        ("g", 7), ("h", 8)] : LinkedHashMap Nat).entriesList ++
        [(some "i", some 9)] :=
  (C4_resize_preserves
    (by
      obtain ⟨ord, chains, hI, _⟩ :=
        fromOps_spec (V := Nat)
          [("a", 1), ("b", 2), ("c", 3), ("d", 4), ("e", 5), ("f", 6),
           ("g", 7), ("h", 8)] (by decide)
      exact ⟨ord, chains, hI⟩)
    "i" 9 (by decide) (by decide)).1

end LHMap

namespace LHMap

open LinkedHashMap

/-- Updating an entry's `value` in place does not disturb the invariant. -/
theorem inv_value_upd {m : LinkedHashMap V} {ord : List Nat}
    {chains : List (List Nat)} (hI : Inv m ord chains) (e : Nat) (v : V) :
    Inv (m.updEnt e fun en => { en with value := some v }) ord chains := by
  refine ⟨?_, ?_, hI.nodup, ?_, ?_, ?_, ?_, ?_, ?_, hI.sync, hI.chainsNodup, ?_⟩
  · rw [updEnt_arena_length]; exact hI.arenaPos
  · rw [updEnt_buckets]; exact hI.bucketsPos
  · intro x hx; rw [updEnt_arena_length]; exact hI.ordValid x hx
  · intro x hx; rw [ent_updValue_key]; exact hI.ordKeys x hx
  · refine chain_transfer hI.cycle ?_
    intro p q _ _ hR
    exact ⟨by rw [ent_updValue_after]; exact hR.1,
           by rw [ent_updValue_before]; exact hR.2⟩
  · rw [updEnt_buckets]; exact hI.chainsLen
  · intro b hble
    rw [updEnt_buckets] at hble ⊢
    exact nextPath_congr (fun x _ => ent_updValue_next m e _ x)
      (hI.chainsPath b hble)
  · intro b hble x hx
    rw [updEnt_buckets] at hble ⊢
    rw [ent_updValue_key]
    exact hI.chainsHash b hble x hx
  · have hmap : (ord.map fun i =>
        ((m.updEnt e fun en => { en with value := some v }).ent i).key) =
        ord.map fun i => (m.ent i).key :=
      List.map_congr_left (fun x _ => ent_updValue_key m e _ x)
    rw [hmap]
    exact hI.keysNodup

/-- On a chain hit, `set` reduces to value update, unlink and relink before
the header. -/
theorem set_found_eq {m : LinkedHashMap V} {k : String} {e : Nat} (v : V)
    (hfind : m.findEntry k m.arena.length
      (m.buckets.getD (m.hash k) none) = some e) :
    m.set k v =
      (((m.updEnt e fun en =>
          { en with value := some v }).removeEntry e).addBefore e headerId) := by
  unfold LinkedHashMap.set
  dsimp only
  rw [hfind]

/-- The "touch" path of `set`: updating an existing key rewrites its value
in place and moves its entry to the end of the order list; the chains,
`size`, and all other entries are untouched. -/
theorem set_found {m : LinkedHashMap V} {ord : List Nat}
    {chains : List (List Nat)} (hI : Inv m ord chains) {k : String} {e : Nat}
    (v : V)
    (hfind : m.findEntry k m.arena.length
      (m.buckets.getD (m.hash k) none) = some e) :
    ∃ (l1 l2 : List Nat),
      ord = l1 ++ e :: l2 ∧
      Inv (m.set k v) ((l1 ++ l2) ++ [e]) chains ∧
      absList (m.set k v) ((l1 ++ l2) ++ [e]) =
        absList m (l1 ++ l2) ++ [(some k, some v)] ∧
      (m.set k v).size = m.size := by
  -- facts about the found entry
  have hfc := hfind
  rw [inv_findEntry hI k] at hfc
  have hke : (m.ent e).key = some k := by
    simpa using List.find?_some hfc
  have hech : e ∈ chains.getD (m.hash k) [] := List.mem_of_find?_eq_some hfc
  have heo : e ∈ ord := chain_mem_ord hI (hash_lt m hI.bucketsPos k) hech
  obtain ⟨l1, l2, rfl⟩ := List.append_of_mem heo
  have h0e : headerId ∉ l1 ++ e :: l2 := (List.nodup_cons.mp hI.nodup).1
  have hnd' : (l1 ++ e :: l2).Nodup := (List.nodup_cons.mp hI.nodup).2
  have hndm : (e :: (l1 ++ l2)).Nodup := List.nodup_middle.mp hnd'
  have hel12 : e ∉ l1 ++ l2 := (List.nodup_cons.mp hndm).1
  have he0 : e ≠ headerId := fun h => h0e (by simp [h])
  have helen : e < m.arena.length := hI.ordValid e (by simp)
  have hperm : List.Perm (l1 ++ e :: l2) ((l1 ++ l2) ++ [e]) := by
    have h1 : List.Perm (l1 ++ e :: l2) (e :: (l1 ++ l2)) := List.perm_middle
    have h2 : List.Perm ((l1 ++ l2) ++ [e]) (e :: (l1 ++ l2)) :=
      List.perm_append_singleton e (l1 ++ l2)
    exact h1.trans h2.symm
  -- name the intermediate states of the three mutation steps
  rw [set_found_eq v hfind]
  generalize hM1 :
    (m.updEnt e fun en => { en with value := some v }) = M1
  have hI1 : Inv M1 (l1 ++ e :: l2) chains := by
    rw [← hM1]; exact inv_value_upd hI e v
  have hM1keep : ∀ j, (M1.ent j).key = (m.ent j).key ∧
      (M1.ent j).next = (m.ent j).next := by
    intro j
    rw [← hM1]
    exact ⟨ent_updValue_key m e _ j, ent_updValue_next m e _ j⟩
  have hM1val : (M1.ent e).value = some v := by
    rw [← hM1, ent_updEnt_self helen]
  have hM1valo : ∀ j, j ≠ e → (M1.ent j).value = (m.ent j).value := by
    intro j hj
    rw [← hM1, ent_updEnt_ne hj]
  have hM1alen : M1.arena.length = m.arena.length := by
    rw [← hM1, updEnt_arena_length]
  have hM1b : M1.buckets = m.buckets := by
    rw [← hM1]; rfl
  have hM1size : M1.size = m.size := by
    rw [← hM1]; rfl
  -- unlink from the cycle
  have hv1 : ∀ x ∈ headerId :: (l1 ++ e :: l2), x < M1.arena.length := by
    intro x hx
    rw [hM1alen]
    rcases List.mem_cons.mp hx with h | h
    · subst h
      simpa [headerId] using hI.arenaPos
    · exact hI.ordValid x h
  have hcyc2 : List.Chain (OrdRel (M1.removeEntry e)) headerId
      ((l1 ++ l2) ++ [headerId]) :=
    cycle_removeEntry hI1.cycle hI1.nodup hv1
  -- relink at the end
  have hnd12 : (headerId :: (l1 ++ l2)).Nodup := by
    have hsub : (headerId :: (l1 ++ l2)).Sublist
        (headerId :: (l1 ++ e :: l2)) := by
      refine List.Sublist.cons₂ headerId ?_
      refine List.Sublist.append_left ?_ l1
      exact List.sublist_cons_self e l2
    exact hI.nodup.sublist hsub
  have hv2 : ∀ x ∈ headerId :: (l1 ++ l2),
      x < (M1.removeEntry e).arena.length := by
    intro x hx
    rw [removeEntry_arena_length]
    refine hv1 x ?_
    rcases List.mem_cons.mp hx with h | h
    · simp [h]
    · rcases List.mem_append.mp h with h | h
      · simp [h]
      · simp [h]
  have hefresh : e ∉ headerId :: (l1 ++ l2) := by
    intro h
    rcases List.mem_cons.mp h with h | h
    · exact he0 h
    · exact hel12 h
  have hcyc3 : List.Chain
      (OrdRel ((M1.removeEntry e).addBefore e headerId)) headerId
      (((l1 ++ l2) ++ [e]) ++ [headerId]) :=
    cycle_addBefore hcyc2 hnd12 hv2
      (by rw [removeEntry_arena_length, hM1alen]; exact helen) hefresh
  -- frame facts for the final state
  generalize hF : (M1.removeEntry e).addBefore e headerId = F at hcyc3
  have hFkeep : ∀ j, (F.ent j).key = (m.ent j).key ∧
      (F.ent j).next = (m.ent j).next := by
    intro j
    rw [← hF]
    obtain ⟨hk1, hv1a, hn1⟩ := addBefore_keeps (M1.removeEntry e) e headerId j
    obtain ⟨hk2, hv2a, hn2⟩ := removeEntry_keeps M1 e j
    exact ⟨by rw [hk1, hk2, (hM1keep j).1], by rw [hn1, hn2, (hM1keep j).2]⟩
  have hFval : ∀ j, (F.ent j).value = (M1.ent j).value := by
    intro j
    rw [← hF]
    obtain ⟨hk1, hv1a, hn1⟩ := addBefore_keeps (M1.removeEntry e) e headerId j
    obtain ⟨hk2, hv2a, hn2⟩ := removeEntry_keeps M1 e j
    rw [hv1a, hv2a]
  have hFalen : F.arena.length = m.arena.length := by
    rw [← hF, addBefore_arena_length, removeEntry_arena_length, hM1alen]
  have hFb : F.buckets = m.buckets := by
    rw [← hF, addBefore_buckets, removeEntry_buckets, hM1b]
  have hFsize : F.size = m.size := by
    rw [← hF, addBefore_size, removeEntry_size, hM1size]
  have hmemiff : ∀ x, x ∈ (l1 ++ l2) ++ [e] ↔ x ∈ l1 ++ e :: l2 :=
    fun x => (hperm.mem_iff).symm
  refine ⟨l1, l2, rfl, ?_, ?_, hFsize⟩
  · -- the invariant for the final state
    refine ⟨?_, ?_, ?_, ?_, ?_, hcyc3, ?_, ?_, ?_, ?_, hI.chainsNodup, ?_⟩
    · rw [hFalen]; exact hI.arenaPos
    · rw [hFb]; exact hI.bucketsPos
    · exact (hperm.cons headerId).nodup hI.nodup
    · intro x hx
      rw [hFalen]
      exact hI.ordValid x ((hmemiff x).mp hx)
    · intro x hx
      rw [(hFkeep x).1]
      exact hI.ordKeys x ((hmemiff x).mp hx)
    · rw [hFb]; exact hI.chainsLen
    · intro b hble
      rw [hFb] at hble ⊢
      exact nextPath_congr (fun x _ => (hFkeep x).2) (hI.chainsPath b hble)
    · intro b hble x hx
      rw [hFb] at hble ⊢
      rw [(hFkeep x).1]
      exact hI.chainsHash b hble x hx
    · intro x
      rw [hI.sync x]
      exact (hmemiff x).symm
    · have hmapeq : ((l1 ++ l2) ++ [e]).map (fun i => (F.ent i).key) =
          ((l1 ++ l2) ++ [e]).map (fun i => (m.ent i).key) :=
        List.map_congr_left (fun x _ => (hFkeep x).1)
      rw [hmapeq]
      exact (hperm.map _).nodup hI.keysNodup
  · -- the observable content
    unfold absList
    rw [List.map_append]
    congr 1
    · refine List.map_congr_left ?_
      intro x hx
      have hxe : x ≠ e := fun h => hel12 (h ▸ hx)
      rw [(hFkeep x).1, hFval x, hM1valo x hxe]
    · simp only [List.map_cons, List.map_nil]
      rw [(hFkeep e).1, hFval e, hM1val, hke]

end LHMap

namespace LHMap

open LinkedHashMap

/-! ## Claim C2 -/

/-- C2: for a well-formed map and a key already present, `set(k, v)`
replaces the value, moves the entry to the last position of iteration
order (directly before the sentinel header), keeps every other entry in
its previous relative order, and leaves `size` unchanged. -/
theorem C2_update_touches {m : LinkedHashMap V} (hswf : SWF m) (k : String)
    (hk : m.has k = true) (v : V) :
    (m.set k v).size = m.size ∧
    (m.set k v).get k = some v ∧
    (m.set k v).entriesList =
      m.entriesList.filter (fun p => !(decide (p.1 = some k))) ++
        [(some k, some v)] := by
  obtain ⟨ord, chains, hI⟩ := hswf
  -- the chain scan finds the entry
  obtain ⟨i, hio, hik⟩ := (has_iff hI k).mp hk
  have hsome : (m.findEntry k m.arena.length
      (m.buckets.getD (m.hash k) none)).isSome := by
    rw [inv_findEntry hI k, List.find?_isSome]
    exact ⟨i, inv_key_bucket hI hio hik, by simpa using hik⟩
  obtain ⟨e, hfind⟩ := Option.isSome_iff_exists.mp hsome
  obtain ⟨l1, l2, hsplit, hI', habs, hsize⟩ := set_found hI v hfind
  subst hsplit
  have hfc := hfind
  rw [inv_findEntry hI k] at hfc
  have hke : (m.ent e).key = some k := by
    simpa using List.find?_some hfc
  -- every other entry of the order list has a different key
  have hinj := List.inj_on_of_nodup_map hI.keysNodup
  have hnd' : (l1 ++ e :: l2).Nodup := (List.nodup_cons.mp hI.nodup).2
  have hel12 : e ∉ l1 ++ l2 :=
    (List.nodup_cons.mp (List.nodup_middle.mp hnd')).1
  have hne : ∀ j ∈ l1 ++ l2, (m.ent j).key ≠ some k := by
    intro j hj hkey
    have hjo : j ∈ l1 ++ e :: l2 := by
      rcases List.mem_append.mp hj with h | h
      · simp [h]
      · simp [h]
    have hje : j = e := hinj hjo (by simp) (by rw [hkey, hke])
    exact hel12 (hje ▸ hj)
  have hnone : (absList m (l1 ++ l2)).find?
      (fun p => decide (p.1 = some k)) = none := by
    rw [List.find?_eq_none]
    intro p hp hdec
    unfold absList at hp
    rcases List.mem_map.mp hp with ⟨j, hj, rfl⟩
    exact hne j hj (by simpa using hdec)
  -- filtering out key k from the old content leaves the other entries
  have hfilter : (absList m (l1 ++ e :: l2)).filter
      (fun p => !(decide (p.1 = some k))) = absList m (l1 ++ l2) := by
    unfold absList
    rw [List.map_append, List.map_append, List.map_cons, List.filter_append,
      List.filter_cons_of_neg (by simp [hke])]
    congr 1
    · rw [List.filter_eq_self]
      intro p hp
      rcases List.mem_map.mp hp with ⟨j, hj, rfl⟩
      simpa using hne j (by simp [hj])
    · rw [List.filter_eq_self]
      intro p hp
      rcases List.mem_map.mp hp with ⟨j, hj, rfl⟩
      simpa using hne j (by simp [hj])
  refine ⟨hsize, ?_, ?_⟩
  · rw [get_eq_assoc hI' k, habs]
    exact assocGet_append_self k (some v) _ hnone
  · rw [entriesList_eq hI', habs, entriesList_eq hI]
    congr 1
    exact hfilter.symm

/-- Witness for C2: re-setting "a" in a two-entry map keeps the size,
yields the new value, and moves "a" to the end of iteration order. -/
theorem C2_witness :
    ((fromOps [("a", 1), ("b", 2)] : LinkedHashMap Nat).set "a" 9).size =
        (fromOps [("a", 1), ("b", 2)] : LinkedHashMap Nat).size ∧
      ((fromOps [("a", 1), ("b", 2)] : LinkedHashMap Nat).set "a" 9).get "a" =
        some 9 ∧
      ((fromOps [("a", 1), ("b", 2)] : LinkedHashMap Nat).set "a" 9).entriesList =
        ((fromOps [("a", 1), ("b", 2)] : LinkedHashMap Nat).entriesList.filter
            (fun p => !(decide (p.1 = some "a")))) ++ [(some "a", some 9)] :=
  C2_update_touches
    (by
      obtain ⟨ord, chains, hI, _⟩ :=
        fromOps_spec (V := Nat) [("a", 1), ("b", 2)] (by decide)
      exact ⟨ord, chains, hI⟩)
    "a" (by decide) 9

end LHMap

namespace LHMap

open LinkedHashMap

/-- Each bucket chain of an invariant state has no duplicate ids. -/
theorem inv_chain_nodup {m : LinkedHashMap V} {ord : List Nat}
    {chains : List (List Nat)} (hI : Inv m ord chains) {b : Nat}
    (hb : b < m.buckets.length) : (chains.getD b []).Nodup := by
  have hble : b < chains.length := by rw [hI.chainsLen]; exact hb
  have hmem' : chains.getD b [] ∈ chains := by
    rw [List.getD_eq_getElem?_getD, List.getElem?_eq_getElem hble]
    exact List.getElem_mem hble
  exact (List.nodup_flatten.mp hI.chainsNodup).1 _ hmem'

theorem ent_set_size (m : LinkedHashMap V) (s : Int) (j : Nat) :
    ({ m with size := s } : LinkedHashMap V).ent j = m.ent j := rfl

theorem ent_mod_mc (m : LinkedHashMap V) (mc : Int) (j : Nat) :
    ({ m with modCount := mc } : LinkedHashMap V).ent j = m.ent j := rfl

theorem arena_set_size (m : LinkedHashMap V) (s : Int) :
    ({ m with size := s } : LinkedHashMap V).arena = m.arena := rfl

theorem spliceState_ent_key (m : LinkedHashMap V) (idx : Nat)
    (last : Option Nat) (e j : Nat) :
    ((spliceState m idx last e).ent j).key = (m.ent j).key := by
  cases last with
  | none =>
      unfold LinkedHashMap.spliceState
      dsimp only
      rw [(removeEntry_keeps _ e j).1]
      rfl
  | some l =>
      unfold LinkedHashMap.spliceState
      dsimp only
      rw [(removeEntry_keeps _ e j).1, ent_set_size, ent_updNext_key,
        ent_mod_mc]

theorem spliceState_next_ne (m : LinkedHashMap V) (idx : Nat)
    (last : Option Nat) (e j : Nat) (hjl : last ≠ some j) :
    ((spliceState m idx last e).ent j).next = (m.ent j).next := by
  cases last with
  | none =>
      unfold LinkedHashMap.spliceState
      dsimp only
      rw [(removeEntry_keeps _ e j).2.2]
      rfl
  | some l =>
      have hjl' : j ≠ l := fun h => hjl (by rw [h])
      unfold LinkedHashMap.spliceState
      dsimp only
      rw [(removeEntry_keeps _ e j).2.2, ent_set_size, ent_upd_cases,
        if_neg (fun hc => hjl' hc.1), ent_mod_mc]

theorem spliceState_last_next (m : LinkedHashMap V) (idx : Nat) (l e : Nat)
    (hl : l < m.arena.length) :
    ((spliceState m idx (some l) e).ent l).next = (m.ent e).next := by
  unfold LinkedHashMap.spliceState
  dsimp only
  rw [(removeEntry_keeps _ e l).2.2, ent_set_size, ent_upd_cases,
    if_pos ⟨rfl, hl⟩]
  rfl

theorem spliceState_buckets_none (m : LinkedHashMap V) (idx : Nat) (e : Nat) :
    (spliceState m idx none e).buckets = m.buckets.set idx (m.ent e).next := by
  unfold LinkedHashMap.spliceState
  dsimp only
  rw [removeEntry_buckets]
  rfl

theorem spliceState_buckets_some (m : LinkedHashMap V) (idx : Nat)
    (l e : Nat) :
    (spliceState m idx (some l) e).buckets = m.buckets := by
  unfold LinkedHashMap.spliceState
  dsimp only
  rw [removeEntry_buckets, updEnt_buckets]

theorem spliceState_buckets_length (m : LinkedHashMap V) (idx : Nat)
    (last : Option Nat) (e : Nat) :
    (spliceState m idx last e).buckets.length = m.buckets.length := by
  cases last with
  | none =>
      rw [spliceState_buckets_none]
      exact List.length_set _ _ _
  | some l =>
      rw [spliceState_buckets_some]

theorem spliceState_arena_length (m : LinkedHashMap V) (idx : Nat)
    (last : Option Nat) (e : Nat) :
    (spliceState m idx last e).arena.length = m.arena.length := by
  cases last with
  | none =>
      unfold LinkedHashMap.spliceState
      dsimp only
      rw [removeEntry_arena_length]
  | some l =>
      unfold LinkedHashMap.spliceState
      dsimp only
      rw [removeEntry_arena_length, arena_set_size, updEnt_arena_length]

theorem spliceState_size (m : LinkedHashMap V) (idx : Nat)
    (last : Option Nat) (e : Nat) :
    (spliceState m idx last e).size = m.size - 1 := by
  cases last with
  | none =>
      unfold LinkedHashMap.spliceState
      dsimp only
      rw [removeEntry_size]
  | some l =>
      unfold LinkedHashMap.spliceState
      dsimp only
      rw [removeEntry_size]
      rfl

/-- If no entry on the chain carries the key, the delete loop falls off the
end and returns `false` with the map unchanged. -/
theorem deleteLoop_miss (m : LinkedHashMap V) (key : String) (idx : Nat) :
    ∀ (chain : List Nat) (h : Option Nat) (fuel : Nat) (last : Option Nat),
      NextPath m h chain → chain.length ≤ fuel →
      (∀ j ∈ chain, (m.ent j).key ≠ some key) →
      deleteLoop m key idx fuel last h = (false, m) := by
  intro chain
  induction chain with
  | nil =>
      intro h fuel last hp _ _
      have hh : h = none := hp
      subst hh
      cases fuel <;> rfl
  | cons x xs ih =>
      intro h fuel last hp hlen hmiss
      obtain ⟨rfl, hp2⟩ := hp
      cases fuel with
      | zero => simp at hlen
      | succ n =>
          simp only [LinkedHashMap.deleteLoop]
          rw [if_neg (hmiss x (by simp))]
          exact ih ((m.ent x).next) n (some x) hp2
            (by simp only [List.length_cons] at hlen; omega)
            (fun j hj => hmiss j (by simp [hj]))

/-- The delete loop hits the first chain entry carrying the key and
returns the spliced state; `last` on arrival is the last id of the passed
prefix. -/
theorem deleteLoop_hit (m : LinkedHashMap V) (key : String) (idx : Nat) :
    ∀ (r1 : List Nat) (r2 : List Nat) (e : Nat) (h : Option Nat) (fuel : Nat)
      (last : Option Nat),
      NextPath m h (r1 ++ e :: r2) →
      (r1 ++ e :: r2).length ≤ fuel →
      (∀ j ∈ r1, (m.ent j).key ≠ some key) →
      (m.ent e).key = some key →
      deleteLoop m key idx fuel last h =
        (true, spliceState m idx (r1.getLast?.or last) e) := by
  intro r1
  induction r1 with
  | nil =>
      intro r2 e h fuel last hp hlen hmiss hke
      obtain ⟨rfl, hp2⟩ := hp
      cases fuel with
      | zero => simp at hlen
      | succ n =>
          simp only [LinkedHashMap.deleteLoop]
          rw [if_pos hke]
          rfl
  | cons x xs ih =>
      intro r2 e h fuel last hp hlen hmiss hke
      obtain ⟨rfl, hp2⟩ := hp
      cases fuel with
      | zero => simp at hlen
      | succ n =>
          simp only [LinkedHashMap.deleteLoop]
          rw [if_neg (hmiss x (by simp))]
          rw [ih r2 e ((m.ent x).next) n (some x) hp2
            (by simp only [List.length_append, List.length_cons] at hlen ⊢
                omega)
            (fun j hj => hmiss j (by simp [hj])) hke]
          have hlast : xs.getLast?.or (some x) = (x :: xs).getLast?.or last := by
            cases xs with
            | nil => rfl
            | cons y ys =>
                rw [List.getLast?_cons_cons,
                  List.getLast?_eq_getLast (y :: ys) (by simp), Option.or_some,
                  Option.or_some]
          rw [hlast]

/-- Redirecting the `next` of the last id of `r1` to skip `e` yields the
chain `r1 ++ r2`. -/
theorem nextPath_splice {m M : LinkedHashMap V} {e l : Nat} :
    ∀ (r1 : List Nat) {r2 : List Nat} {h : Option Nat},
      NextPath m h (r1 ++ e :: r2) →
      r1.getLast? = some l →
      (r1 ++ e :: r2).Nodup →
      (M.ent l).next = (m.ent e).next →
      (∀ j, j ≠ l → (M.ent j).next = (m.ent j).next) →
      NextPath M h (r1 ++ r2) := by
  intro r1
  induction r1 with
  | nil =>
      intro r2 h _ hl
      simp at hl
  | cons x xs ih =>
      intro r2 h hp hl hnd hMl hMo
      obtain ⟨rfl, hp2⟩ := hp
      cases xs with
      | nil =>
          have hlx : x = l := by simpa using hl
          subst hlx
          obtain ⟨hxe, hp3⟩ := hp2
          refine ⟨rfl, ?_⟩
          rw [hMl]
          refine nextPath_congr ?_ hp3
          intro j hj
          refine hMo j ?_
          intro hje
          subst hje
          exact (List.nodup_cons.mp hnd).1 (List.mem_cons_of_mem e hj)
      | cons y ys =>
          rw [List.cons_append] at hnd
          rw [List.getLast?_cons_cons] at hl
          have hxl : x ≠ l := by
            intro hxe
            have hlm : l ∈ (y :: ys) ++ e :: r2 :=
              List.mem_append.mpr (Or.inl (List.mem_of_getLast?_eq_some hl))
            subst hxe
            exact (List.nodup_cons.mp hnd).1 hlm
          refine ⟨rfl, ?_⟩
          rw [hMo x hxl]
          exact ih hp2 hl (List.nodup_cons.mp hnd).2 hMl hMo

/-- After splicing out the (unique) chain entry carrying key `k`, the key
is no longer found. -/
theorem spliceState_has_false {m : LinkedHashMap V} {ord : List Nat}
    {chains : List (List Nat)} (hI : Inv m ord chains) {k : String} {e : Nat}
    {r1 r2 : List Nat}
    (hsplit : chains.getD (m.hash k) [] = r1 ++ e :: r2)
    (hke : (m.ent e).key = some k) :
    (spliceState m (m.hash k) r1.getLast? e).has k = false := by
  have hb : m.hash k < m.buckets.length := hash_lt m hI.bucketsPos k
  have hnd : (r1 ++ e :: r2).Nodup := by
    rw [← hsplit]
    exact inv_chain_nodup hI hb
  have hpath : NextPath m (m.buckets.getD (m.hash k) none) (r1 ++ e :: r2) := by
    rw [← hsplit]
    exact hI.chainsPath _ hb
  have hmemord : ∀ j ∈ r1 ++ e :: r2, j ∈ ord := by
    intro j hj
    refine chain_mem_ord hI hb ?_
    rw [hsplit]
    exact hj
  have heo : e ∈ ord := hmemord e (by simp)
  have henotin : e ∉ r1 ++ r2 :=
    (List.nodup_cons.mp (List.nodup_middle.mp hnd)).1
  have hinj := List.inj_on_of_nodup_map hI.keysNodup
  have hne : ∀ j ∈ r1 ++ r2, (m.ent j).key ≠ some k := by
    intro j hj hkey
    have hj' : j ∈ r1 ++ e :: r2 := by
      rcases List.mem_append.mp hj with hcase | hcase
      · simp [hcase]
      · simp [hcase]
    have hje : j = e := hinj (hmemord j hj') heo (by rw [hkey, hke])
    subst hje
    exact henotin hj
  have hlen : (r1 ++ e :: r2).length ≤ m.arena.length := by
    rw [← hsplit]
    exact chain_fits hI hb
  generalize hM : spliceState m (m.hash k) r1.getLast? e = M
  have hMkey : ∀ j, (M.ent j).key = (m.ent j).key := by
    intro j
    rw [← hM]
    exact spliceState_ent_key m (m.hash k) r1.getLast? e j
  have hMblen : M.buckets.length = m.buckets.length := by
    rw [← hM]
    exact spliceState_buckets_length m (m.hash k) r1.getLast? e
  have hMalen : M.arena.length = m.arena.length := by
    rw [← hM]
    exact spliceState_arena_length m (m.hash k) r1.getLast? e
  have hpathM : NextPath M (M.buckets.getD (m.hash k) none) (r1 ++ r2) := by
    rcases heq : r1.getLast? with _ | l
    · rw [heq] at hM
      have hr1 : r1 = [] := List.getLast?_eq_none_iff.mp heq
      subst hr1
      obtain ⟨hhead, hp2⟩ := hpath
      have hbk : M.buckets = m.buckets.set (m.hash k) (m.ent e).next := by
        rw [← hM]
        exact spliceState_buckets_none m (m.hash k) e
      have hget : M.buckets.getD (m.hash k) none = (m.ent e).next := by
        rw [hbk, List.getD_eq_getElem?_getD, List.getElem?_set_self hb]
        rfl
      rw [hget]
      refine nextPath_congr ?_ hp2
      intro j hj
      rw [← hM]
      exact spliceState_next_ne m (m.hash k) none e j (by simp)
    · rw [heq] at hM
      have hbk : M.buckets = m.buckets := by
        rw [← hM]
        exact spliceState_buckets_some m (m.hash k) l e
      have hlmem : l ∈ r1 := List.mem_of_getLast?_eq_some heq
      have hllen : l < m.arena.length :=
        hI.ordValid l (hmemord l (by simp [hlmem]))
      have hMl : (M.ent l).next = (m.ent e).next := by
        rw [← hM]
        exact spliceState_last_next m (m.hash k) l e hllen
      have hMo : ∀ j, j ≠ l → (M.ent j).next = (m.ent j).next := by
        intro j hjl
        rw [← hM]
        exact spliceState_next_ne m (m.hash k) (some l) e j
          (fun hc => hjl (Option.some_inj.mp hc).symm)
      rw [hbk]
      exact nextPath_splice r1 hpath heq hnd hMl hMo
  have hhash : M.hash k = m.hash k := by
    unfold LinkedHashMap.hash
    rw [hMblen]
  have hlen2 : (r1 ++ r2).length ≤ M.arena.length := by
    rw [hMalen]
    simp only [List.length_append, List.length_cons] at hlen ⊢
    omega
  have hnone : M.findEntry k M.arena.length
      (M.buckets.getD (M.hash k) none) = none := by
    rw [hhash]
    rw [findEntry_eq M k (r1 ++ r2) _ _ hpathM hlen2]
    rw [List.find?_eq_none]
    intro j hj hdec
    refine hne j hj ?_
    rw [← hMkey j]
    simpa using hdec
  unfold LinkedHashMap.has
  rw [hnone]
  rfl

end LHMap

namespace LHMap

open LinkedHashMap

/-! ## Claim C3 (amended) -/

/-- C3 (amended): for a well-formed map (every state whose bucket chains
and order list are in sync — all states reachable without `clear`): if key
`k` is present, `delete(k)` returns `true`, afterwards `has(k)` is `false`
and `size` has decreased by exactly 1; if `k` is absent, `delete(k)`
returns `false` and leaves the map (hence `size`) unchanged. -/
theorem C3_amended_delete {m : LinkedHashMap V} (hswf : SWF m) (k : String) :
    (m.has k = true →
      (m.delete k).1 = true ∧
      ((m.delete k).2).has k = false ∧
      ((m.delete k).2).size = m.size - 1) ∧
    (m.has k = false → m.delete k = (false, m)) := by
  obtain ⟨ord, chains, hI⟩ := hswf
  have hb : m.hash k < m.buckets.length := hash_lt m hI.bucketsPos k
  constructor
  · intro hk
    have hfind : (m.findEntry k m.arena.length
        (m.buckets.getD (m.hash k) none)).isSome = true := hk
    rw [inv_findEntry hI k] at hfind
    obtain ⟨e, he⟩ := Option.isSome_iff_exists.mp hfind
    rw [List.find?_eq_some] at he
    obtain ⟨hpe, r1, r2, hsplit, hmiss⟩ := he
    have hke : (m.ent e).key = some k := by simpa using hpe
    have hr1 : ∀ j ∈ r1, (m.ent j).key ≠ some k := by
      intro j hj
      simpa using hmiss j hj
    have hpath : NextPath m (m.buckets.getD (m.hash k) none)
        (r1 ++ e :: r2) := by
      rw [← hsplit]
      exact hI.chainsPath _ hb
    have hlen : (r1 ++ e :: r2).length ≤ m.arena.length := by
      rw [← hsplit]
      exact chain_fits hI hb
    have hdel : m.delete k =
        (true, spliceState m (m.hash k) r1.getLast? e) := by
      unfold LinkedHashMap.delete
      dsimp only
      rw [deleteLoop_hit m k (m.hash k) r1 r2 e _ m.arena.length none hpath
        hlen hr1 hke]
      rw [Option.or_none]
    refine ⟨by rw [hdel], ?_, ?_⟩
    · rw [hdel]
      exact spliceState_has_false hI hsplit hke
    · rw [hdel]
      exact spliceState_size m (m.hash k) r1.getLast? e
  · intro hk
    have hno : ∀ j ∈ ord, (m.ent j).key ≠ some k := by
      intro j hj hkey
      have htrue := (has_iff hI k).mpr ⟨j, hj, hkey⟩
      rw [hk] at htrue
      exact Bool.false_ne_true htrue
    unfold LinkedHashMap.delete
    dsimp only
    exact deleteLoop_miss m k (m.hash k) (chains.getD (m.hash k) []) _
      m.arena.length none (hI.chainsPath _ hb) (chain_fits hI hb)
      (fun j hj => hno j (chain_mem_ord hI hb hj))

/-- Witness for the amended C3 on the present branch: deleting "a" from a
two-entry map returns true, makes has "a" false and drops size to 1. -/
theorem C3_amended_witness :
    ((fromOps [("a", 1), ("b", 2)] : LinkedHashMap Nat).delete "a").1 = true ∧
    (((fromOps [("a", 1), ("b", 2)] : LinkedHashMap Nat).delete "a").2).has "a"
        = false ∧
    (((fromOps [("a", 1), ("b", 2)] : LinkedHashMap Nat).delete "a").2).size =
      (fromOps [("a", 1), ("b", 2)] : LinkedHashMap Nat).size - 1 :=
  (C3_amended_delete
    (by
      obtain ⟨ord, chains, hI, _⟩ :=
        fromOps_spec (V := Nat) [("a", 1), ("b", 2)] (by decide)
      exact ⟨ord, chains, hI⟩)
    "a").1 (by decide)

end LHMap
